import Mathlib

/-!
Shallow embedding of the debt-tracker ledger application (Rust sources
`src/models.rs`, `src/database.rs`, `src/app.rs`) and proofs about its
persistence layer and analytics engine.

Modelling conventions:
* `f64` amounts and balances are embedded as exact rationals (`Rat`); the
  algorithms under study only add, subtract and compare amounts.
* `chrono::NaiveDateTime` is embedded as a day number (the `NaiveDate`
  part) plus a time-of-day, ordered lexicographically;
  `NaiveDate` subtraction (`num_days`) is day-number subtraction.
* `HashMap`s that are folded over the transaction list are embedded as
  total functions updated pointwise; the `HashSet<usize>` result of
  reconciliation is embedded as its membership test.
* The file system touched by `Database` is embedded as an explicit state
  (primary file content plus the listing of the backup directory), and
  `serde_json` (an external library) as an abstract
  serialize/parse pair.
-/

attribute [local semireducible] Rat.add Rat.sub Rat.mul Rat.inv

/-- Currency enumeration, from `MoneyType` in `src/models.rs`. -/
inductive MoneyType
  | GEL | USD | EUR | GBP | RUB | Other
deriving DecidableEq, Repr

/-- Transaction direction, from `Direction` in `src/models.rs`. -/
inductive Direction
  | Lent | Borrowed | Returned | Repaid
deriving DecidableEq, Repr

/-- Embedding of `chrono::NaiveDateTime`: `day` is the day number of the
`NaiveDate` part (`datetime.date()`), `tod` the time within the day.
Comparison is lexicographic, as for chrono datetimes. -/
structure DateTime where
  day : Int
  tod : Nat
deriving DecidableEq, Repr

instance : LE DateTime :=
  ⟨fun a b => a.day < b.day ∨ (a.day = b.day ∧ a.tod ≤ b.tod)⟩

instance : LT DateTime :=
  ⟨fun a b => a.day < b.day ∨ (a.day = b.day ∧ a.tod < b.tod)⟩

instance (a b : DateTime) : Decidable (a ≤ b) :=
  inferInstanceAs (Decidable (Or _ _))

instance (a b : DateTime) : Decidable (a < b) :=
  inferInstanceAs (Decidable (Or _ _))

theorem DateTime.le_refl (a : DateTime) : a ≤ a := Or.inr ⟨rfl, Nat.le_refl _⟩

theorem DateTime.le_trans {a b c : DateTime} (h1 : a ≤ b) (h2 : b ≤ c) :
    a ≤ c := by
  rcases h1 with h1 | ⟨h1, h1'⟩ <;> rcases h2 with h2 | ⟨h2, h2'⟩
  · exact Or.inl (lt_trans h1 h2)
  · exact Or.inl (h2 ▸ h1)
  · exact Or.inl (h1 ▸ h2)
  · exact Or.inr ⟨h1.trans h2, Nat.le_trans h1' h2'⟩

theorem DateTime.le_total (a b : DateTime) : a ≤ b ∨ b ≤ a := by
  rcases Int.lt_trichotomy a.day b.day with h | h | h
  · exact Or.inl (Or.inl h)
  · rcases Nat.le_total a.tod b.tod with h' | h'
    · exact Or.inl (Or.inr ⟨h, h'⟩)
    · exact Or.inr (Or.inr ⟨h.symm, h'⟩)
  · exact Or.inr (Or.inl h)

theorem DateTime.not_lt {a b : DateTime} : ¬ a < b ↔ b ≤ a := by
  constructor
  · intro h
    rcases Int.lt_trichotomy a.day b.day with hd | hd | hd
    · exact absurd (Or.inl hd) h
    · rcases Nat.lt_or_ge a.tod b.tod with ht | ht
      · exact absurd (Or.inr ⟨hd, ht⟩) h
      · exact Or.inr ⟨hd.symm, ht⟩
    · exact Or.inl hd
  · rintro (h | ⟨h, h'⟩) (h2 | ⟨h2, h2'⟩)
    · exact absurd (lt_trans h h2) (lt_irrefl _)
    · exact absurd (h2 ▸ h) (lt_irrefl _)
    · exact absurd (h ▸ h2) (lt_irrefl _)
    · exact absurd (Nat.lt_of_le_of_lt h' h2') (lt_irrefl _)

/-- Modelled from the spec: the audit entry for an edit of a transaction's
expected-return date (`DeadlineChange` is used by `src/app.rs` but its
declaration is in a models module missing from the sources; `src/models.rs`
as shipped is a stale copy without it). Fields follow the spec's
`{old_date, new_date, changed_at (timestamp)}`. -/
structure DeadlineChange where
  old_date : Int
  new_date : Int
  changed_at : DateTime
deriving DecidableEq, Repr

/-- Embedding of `Transaction` as used by `src/app.rs`: the fields of
`src/models.rs` plus the `deadline_changes` audit list (present in the
app code and the spec, missing from the stale `src/models.rs`).
The single-field `Person` struct is flattened to its `name` string;
`amount : f64` becomes an exact rational; `expected_return_date :
Option<NaiveDate>` becomes an optional day number. -/
structure Transaction where
  person : String
  amount : Rat
  money_type : MoneyType
  direction : Direction
  datetime : DateTime
  expected_return_date : Option Int
  attachment_path : Option String
  deadline_changes : List DeadlineChange
deriving DecidableEq, Repr

/-! ## Debt reconciliation (`BankingApp::calculate_paid_back_transactions`) -/

/-- The `(index, amount, direction)` triples that
`calculate_paid_back_transactions` collects into the `person_debts` map
for key `(p, c)`, in ledger enumeration order. -/
def groupEntries (txs : List Transaction) (p : String) (c : MoneyType) :
    List (Nat × Rat × Direction) :=
  (txs.enum.filter fun it =>
      decide (it.2.person = p) && decide (it.2.money_type = c)).map
    fun it => (it.1, it.2.amount, it.2.direction)

/-- The `lent_borrowed` list of a `(person, currency)` group: its
Lent/Borrowed entries, as `(index, amount)`, in ledger order. -/
def lentBorrowedOf (txs : List Transaction) (p : String) (c : MoneyType) :
    List (Nat × Rat) :=
  ((groupEntries txs p c).filter fun e =>
      decide (e.2.2 = Direction.Lent) || decide (e.2.2 = Direction.Borrowed)).map
    fun e => (e.1, e.2.1)

/-- The pooled `remaining_returns` of a `(person, currency)` group: the sum
of its Returned/Repaid amounts. -/
def availableOf (txs : List Transaction) (p : String) (c : MoneyType) : Rat :=
  (((groupEntries txs p c).filter fun e =>
      decide (e.2.2 = Direction.Returned) || decide (e.2.2 = Direction.Repaid)).map
    fun e => e.2.1).sum

/-- The marking loop of `calculate_paid_back_transactions`: walk the
`lent_borrowed` list; mark an index and subtract its amount while
`remaining_returns >= amount`; the first entry that does not fit stops the
walk (both `else` branches of the Rust loop `break`). -/
def walkMarks : Rat → List (Nat × Rat) → List Nat
  | _, [] => []
  | avail, (i, a) :: rest =>
      if a ≤ avail then i :: walkMarks (avail - a) rest else []

/-- Membership in the `HashSet<usize>` returned by
`calculate_paid_back_transactions`: index `i` is paid back iff the walk of
its own `(person, currency)` group marks it (groups partition the ledger's
indices, so the union over groups is decided by `i`'s own group). -/
def calculate_paid_back_transactions (txs : List Transaction) (i : Nat) : Bool :=
  match txs[i]? with
  | none => false
  | some t =>
      (walkMarks (availableOf txs t.person t.money_type)
        (lentBorrowedOf txs t.person t.money_type)).contains i

/-- The remaining pool before the walk reaches position `k` of the
`lent_borrowed` list: the pooled returns minus the first `k` amounts. -/
def remBefore (txs : List Transaction) (p : String) (c : MoneyType)
    (k : Nat) : Rat :=
  availableOf txs p c - (((lentBorrowedOf txs p c).take k).map (·.2)).sum

-- scratch checks of the embedding on the spec's example
def exC1 : List Transaction :=
  [⟨"X", 100, MoneyType.GEL, Direction.Lent, ⟨0, 0⟩, none, none, []⟩,
   ⟨"X", 50, MoneyType.GEL, Direction.Lent, ⟨1, 0⟩, none, none, []⟩,
   ⟨"X", 120, MoneyType.GEL, Direction.Returned, ⟨2, 0⟩, none, none, []⟩]

example : calculate_paid_back_transactions exC1 0 = true := by decide
example : calculate_paid_back_transactions exC1 1 = false := by decide
example : calculate_paid_back_transactions exC1 2 = false := by decide
example : availableOf exC1 "X" MoneyType.GEL = 120 := by decide
example : (lentBorrowedOf exC1 "X" MoneyType.GEL).length = 2 := by decide

/-- The number of entries the reconciliation walk marks before stopping. -/
def walkLen : Rat → List (Nat × Rat) → Nat
  | _, [] => 0
  | avail, (_, a) :: rest =>
      if a ≤ avail then walkLen (avail - a) rest + 1 else 0

theorem walkMarks_eq_take (avail : Rat) (l : List (Nat × Rat)) :
    walkMarks avail l = (l.take (walkLen avail l)).map Prod.fst := by
  induction l generalizing avail with
  | nil => rfl
  | cons x rest ih =>
    obtain ⟨i, a⟩ := x
    simp only [walkMarks, walkLen]
    by_cases h : a ≤ avail
    · simp [h, ih]
    · simp [h]

theorem walkLen_le (avail : Rat) (l : List (Nat × Rat)) :
    walkLen avail l ≤ l.length := by
  induction l generalizing avail with
  | nil => simp [walkLen]
  | cons x rest ih =>
    obtain ⟨i, a⟩ := x
    simp only [walkLen]
    by_cases h : a ≤ avail
    · simpa [h] using Nat.succ_le_succ (ih _)
    · simp [h]

theorem walkLen_afford (avail : Rat) (l : List (Nat × Rat)) :
    ∀ i, i < walkLen avail l → (hil : i < l.length) →
      (l.get ⟨i, hil⟩).2 ≤ avail - ((l.take i).map (·.2)).sum := by
  induction l generalizing avail with
  | nil => intro i hi hil; simp at hil
  | cons x rest ih =>
    obtain ⟨j, a⟩ := x
    intro i hi hil
    simp only [walkLen] at hi
    by_cases h : a ≤ avail
    · rw [if_pos h] at hi
      cases i with
      | zero => simpa using h
      | succ i' =>
        have h2 := ih (avail - a) i' (Nat.lt_of_succ_lt_succ hi)
          (Nat.lt_of_succ_lt_succ hil)
        simp only [List.get_cons_succ, List.take_succ_cons, List.map_cons,
          List.sum_cons, ← sub_sub]
        exact h2
    · rw [if_neg h] at hi; exact absurd hi (Nat.not_lt_zero _)

theorem walkLen_stop (avail : Rat) (l : List (Nat × Rat))
    (h : walkLen avail l < l.length) :
    ¬ ((l.get ⟨walkLen avail l, h⟩).2
        ≤ avail - ((l.take (walkLen avail l)).map (·.2)).sum) := by
  induction l generalizing avail with
  | nil => simp at h
  | cons x rest ih =>
    obtain ⟨j, a⟩ := x
    by_cases hc : a ≤ avail
    · have hlt : walkLen (avail - a) rest < rest.length := by
        have := h; simp only [walkLen, if_pos hc, List.length_cons] at this
        omega
      have h2 := ih (avail - a) hlt
      simp only [walkLen, if_pos hc, List.get_cons_succ, List.take_succ_cons,
        List.map_cons, List.sum_cons, ← sub_sub]
      exact h2
    · simp only [walkLen, if_neg hc, List.take_zero, List.map_nil,
        List.sum_nil, sub_zero]
      simpa using hc

theorem mem_take_map_fst_iff {l : List (Nat × Rat)}
    (hnd : (l.map Prod.fst).Nodup) {j : Nat} (hj : j < l.length) {k : Nat} :
    ((l.get ⟨j, hj⟩).1 ∈ (l.take k).map Prod.fst) ↔ j < k := by
  rw [List.map_take]
  constructor
  · intro hmem
    rw [List.mem_take_iff_getElem] at hmem
    obtain ⟨i, him, hieq⟩ := hmem
    have hilen : i < (List.map Prod.fst l).length :=
      lt_of_lt_of_le him (min_le_right _ _)
    have hjlen : j < (List.map Prod.fst l).length := by simpa using hj
    have hgets : (List.map Prod.fst l).get ⟨i, hilen⟩
        = (List.map Prod.fst l).get ⟨j, hjlen⟩ := by
      simp only [List.get_eq_getElem] at hieq ⊢
      rw [hieq]
      simp [List.getElem_map]
    have hij := hnd.get_inj_iff.mp hgets
    have : i = j := congrArg Fin.val hij
    omega
  · intro hlt
    rw [List.mem_take_iff_getElem]
    refine ⟨j, by simp; omega, ?_⟩
    simp [List.getElem_map]

theorem lb_fst_sublist (txs : List Transaction) (p : String) (c : MoneyType) :
    ((lentBorrowedOf txs p c).map Prod.fst).Sublist (List.range txs.length) := by
  have key : (lentBorrowedOf txs p c).map Prod.fst
      = ((txs.enum.filter fun it =>
            decide (it.2.person = p) && decide (it.2.money_type = c)).filter
          ((fun e => decide (e.2.2 = Direction.Lent)
              || decide (e.2.2 = Direction.Borrowed)) ∘
            (fun it => (it.1, it.2.amount, it.2.direction)))).map Prod.fst := by
    unfold lentBorrowedOf groupEntries
    rw [List.filter_map, List.map_map, List.map_map]
    rfl
  rw [key]
  have h1 : ((txs.enum.filter fun it =>
        decide (it.2.person = p) && decide (it.2.money_type = c)).filter
      ((fun e => decide (e.2.2 = Direction.Lent)
          || decide (e.2.2 = Direction.Borrowed)) ∘
        (fun it : Nat × Transaction =>
          (it.1, it.2.amount, it.2.direction)))).Sublist txs.enum :=
    (List.filter_sublist _).trans (List.filter_sublist _)
  have h2 := List.Sublist.map Prod.fst h1
  rw [List.enum_map_fst] at h2
  exact h2

theorem lb_fst_nodup (txs : List Transaction) (p : String) (c : MoneyType) :
    ((lentBorrowedOf txs p c).map Prod.fst).Nodup :=
  (lb_fst_sublist txs p c).nodup (List.nodup_range _)

theorem lb_mem {txs : List Transaction} {p : String} {c : MoneyType}
    {e : Nat × Rat} (he : e ∈ lentBorrowedOf txs p c) :
    ∃ t : Transaction, txs[e.1]? = some t ∧ t.person = p ∧ t.money_type = c := by
  unfold lentBorrowedOf groupEntries at he
  obtain ⟨x, hx, hxe⟩ := List.mem_map.mp he
  obtain ⟨hx1, _⟩ := List.mem_filter.mp hx
  obtain ⟨it, hit, hgx⟩ := List.mem_map.mp hx1
  obtain ⟨hen, hP⟩ := List.mem_filter.mp hit
  have hget : txs[it.1]? = some it.2 := List.mem_enum_iff_getElem?.mp hen
  rw [Bool.and_eq_true, decide_eq_true_eq, decide_eq_true_eq] at hP
  refine ⟨it.2, ?_, hP.1, hP.2⟩
  have he1 : e.1 = it.1 := by rw [← hxe, ← hgx]
  rw [he1]; exact hget

theorem paid_back_get_iff (txs : List Transaction) (p : String) (c : MoneyType)
    (j : Nat) (hj : j < (lentBorrowedOf txs p c).length) :
    calculate_paid_back_transactions txs
        ((lentBorrowedOf txs p c).get ⟨j, hj⟩).1 = true
      ↔ ∀ i : Nat, (hle : i ≤ j) →
          ((lentBorrowedOf txs p c).get ⟨i, lt_of_le_of_lt hle hj⟩).2
            ≤ remBefore txs p c i := by
  obtain ⟨t, ht, htp, htc⟩ :=
    lb_mem (List.get_mem (lentBorrowedOf txs p c) j hj)
  unfold calculate_paid_back_transactions
  rw [ht]
  simp only [htp, htc]
  rw [show ((walkMarks (availableOf txs p c) (lentBorrowedOf txs p c)).contains
        ((lentBorrowedOf txs p c).get ⟨j, hj⟩).1 = true)
      ↔ ((lentBorrowedOf txs p c).get ⟨j, hj⟩).1
          ∈ walkMarks (availableOf txs p c) (lentBorrowedOf txs p c) by simp]
  rw [walkMarks_eq_take]
  rw [mem_take_map_fst_iff (lb_fst_nodup txs p c) hj]
  unfold remBefore
  constructor
  · intro hlt i hle
    exact walkLen_afford _ _ i (lt_of_le_of_lt hle hlt) (lt_of_le_of_lt hle hj)
  · intro hall
    by_contra hnlt
    have hle : walkLen (availableOf txs p c) (lentBorrowedOf txs p c) ≤ j :=
      Nat.le_of_not_lt hnlt
    have hklen : walkLen (availableOf txs p c) (lentBorrowedOf txs p c)
        < (lentBorrowedOf txs p c).length := lt_of_le_of_lt hle hj
    exact walkLen_stop _ _ hklen (hall _ hle)

/-- C1: debt reconciliation pools the sum of a (counterparty, currency)
group's Returned and Repaid amounts into `available` (`availableOf`), walks
the group's Lent and Borrowed transactions in original ledger insertion
order (`lentBorrowedOf`), and marks the transaction at position `j` of that
walk exactly when at every position up to and including `j` the remaining
pool still covers that position's amount — so the first transaction whose
amount exceeds the remaining pool stops the walk and no later transaction
of the group is ever marked. In particular, for counterparty X with
Lent(100), Lent(50), Returned(120) in that order, Lent(100) is marked paid
back and Lent(50) is not. -/
theorem claim_C1_reconciliation_greedy :
    (∀ (txs : List Transaction) (p : String) (c : MoneyType)
        (j : Nat) (hj : j < (lentBorrowedOf txs p c).length),
        calculate_paid_back_transactions txs
            ((lentBorrowedOf txs p c).get ⟨j, hj⟩).1 = true
          ↔ ∀ i : Nat, (hle : i ≤ j) →
              ((lentBorrowedOf txs p c).get ⟨i, lt_of_le_of_lt hle hj⟩).2
                ≤ remBefore txs p c i)
    ∧ calculate_paid_back_transactions exC1 0 = true
    ∧ calculate_paid_back_transactions exC1 1 = false :=
  ⟨paid_back_get_iff, by decide, by decide⟩

/-- Witness for C1: the general marking equivalence applied to the
concrete three-transaction example ledger at walk position 0. -/
theorem claim_C1_witness :
    calculate_paid_back_transactions exC1
        ((lentBorrowedOf exC1 "X" MoneyType.GEL).get ⟨0, by decide⟩).1 = true := by
  exact (claim_C1_reconciliation_greedy.1 exC1 "X" MoneyType.GEL 0 (by decide)).mpr
    (by intro i hle
        have hz : i = 0 := Nat.le_zero.mp hle
        subst hz
        exact (by decide :
          ((lentBorrowedOf exC1 "X" MoneyType.GEL).get ⟨0, by decide⟩).2
            ≤ remBefore exC1 "X" MoneyType.GEL 0))

/-! ## Per-currency balances and balance timeline
(`BankingApp::show_analysis`, `BankingApp::generate_balance_timeline`) -/

/-- One step of the balance accumulation loop of `show_analysis`
(`src/app.rs` lines 516-537): the sign rule Lent −, Borrowed +,
Returned +, Repaid −, applied to the running per-currency map. -/
def analysisStep (m : MoneyType → Rat) (t : Transaction) : MoneyType → Rat :=
  fun c =>
    if c = t.money_type then
      match t.direction with
      | Direction.Lent => m t.money_type - t.amount
      | Direction.Borrowed => m t.money_type + t.amount
      | Direction.Returned => m t.money_type + t.amount
      | Direction.Repaid => m t.money_type - t.amount
    else m c

/-- The `balances_by_currency` map computed by `show_analysis`: a scan of
all transactions with the sign rule. (The dashboard pre-seeds GEL/USD/EUR
with 0.0; as a total function the pre-seeding is already the zero
default.) -/
def balancesByCurrency (txs : List Transaction) : MoneyType → Rat :=
  txs.foldl analysisStep (fun _ => 0)

/-- Signed contribution of one transaction under the sign rule shared by
`show_analysis` and `generate_balance_timeline`. -/
def signedDelta (t : Transaction) : Rat :=
  match t.direction with
  | Direction.Lent => -t.amount
  | Direction.Borrowed => t.amount
  | Direction.Returned => t.amount
  | Direction.Repaid => -t.amount

/-- State of the `generate_balance_timeline` loop: the running balances
and the per-currency sample lists accumulated so far. -/
structure TimelineState where
  balances : MoneyType → Rat
  result : MoneyType → List (Nat × Rat)

/-- One iteration of `generate_balance_timeline`'s loop over
`sorted_tx.iter().enumerate()`: update the currency's running balance by
the sign rule and push `[idx, balance]` onto that currency's samples. -/
def timelineStep (s : TimelineState) (it : Nat × Transaction) : TimelineState :=
  let t := it.2
  let newBal : Rat :=
    match t.direction with
    | Direction.Lent => s.balances t.money_type - t.amount
    | Direction.Borrowed => s.balances t.money_type + t.amount
    | Direction.Returned => s.balances t.money_type + t.amount
    | Direction.Repaid => s.balances t.money_type - t.amount
  { balances := fun c => if c = t.money_type then newBal else s.balances c,
    result := fun c =>
      if c = t.money_type then s.result c ++ [(it.1, newBal)]
      else s.result c }

/-- `BankingApp::generate_balance_timeline`: clone the ledger, stable-sort
it by `datetime`, then scan once with the sign rule, emitting one
`(index, running balance)` sample per transaction into its currency's
list. -/
def generate_balance_timeline (txs : List Transaction) :
    MoneyType → List (Nat × Rat) :=
  (((List.insertionSort (fun a b => a.datetime ≤ b.datetime) txs).enum).foldl
    timelineStep ⟨fun _ => 0, fun _ => []⟩).result

theorem analysisStep_point (m : MoneyType → Rat) (t : Transaction)
    (c : MoneyType) (h : t.money_type = c) :
    analysisStep m t c = m c + signedDelta t := by
  unfold analysisStep signedDelta
  rw [if_pos h.symm, h]
  cases t.direction <;> ring

theorem analysisStep_point_ne (m : MoneyType → Rat) (t : Transaction)
    (c : MoneyType) (h : ¬ t.money_type = c) :
    analysisStep m t c = m c := by
  unfold analysisStep
  rw [if_neg (fun hc => h hc.symm)]

theorem foldl_analysisStep (txs : List Transaction) :
    ∀ (m : MoneyType → Rat) (c : MoneyType),
      txs.foldl analysisStep m c
        = m c + ((txs.filter fun t => decide (t.money_type = c)).map
            signedDelta).sum := by
  induction txs with
  | nil => intro m c; simp
  | cons t rest ih =>
    intro m c
    simp only [List.foldl_cons, List.filter_cons]
    by_cases h : t.money_type = c
    · rw [if_pos (by simpa using h), ih, analysisStep_point m t c h]
      simp only [List.map_cons, List.sum_cons]
      ring
    · rw [if_neg (by simpa using h), ih, analysisStep_point_ne m t c h]

theorem balancesByCurrency_eq (txs : List Transaction) (c : MoneyType) :
    balancesByCurrency txs c
      = ((txs.filter fun t => decide (t.money_type = c)).map signedDelta).sum := by
  unfold balancesByCurrency
  rw [foldl_analysisStep]
  simp

theorem timelineStep_balances (s : TimelineState) (it : Nat × Transaction)
    (c : MoneyType) (h : it.2.money_type = c) :
    (timelineStep s it).balances c = s.balances c + signedDelta it.2 := by
  unfold timelineStep signedDelta
  cases hd : it.2.direction <;> simp [h, hd] <;> ring

theorem timelineStep_balances_ne (s : TimelineState) (it : Nat × Transaction)
    (c : MoneyType) (h : ¬ it.2.money_type = c) :
    (timelineStep s it).balances c = s.balances c := by
  simp only [timelineStep]
  rw [if_neg (show ¬ c = it.2.money_type from fun hc => h hc.symm)]

theorem timelineStep_result (s : TimelineState) (it : Nat × Transaction)
    (c : MoneyType) (h : it.2.money_type = c) :
    (timelineStep s it).result c
      = s.result c ++ [(it.1, (timelineStep s it).balances c)] := by
  simp only [timelineStep]
  rw [if_pos (show c = it.2.money_type from h.symm),
    if_pos (show c = it.2.money_type from h.symm)]

theorem timelineStep_result_ne (s : TimelineState) (it : Nat × Transaction)
    (c : MoneyType) (h : ¬ it.2.money_type = c) :
    (timelineStep s it).result c = s.result c := by
  simp only [timelineStep]
  rw [if_neg (show ¬ c = it.2.money_type from fun hc => h hc.symm)]

theorem timeline_foldl (l : List (Nat × Transaction)) :
    ∀ (s : TimelineState) (c : MoneyType),
      ((l.foldl timelineStep s).balances c
        = s.balances c
          + ((l.filter fun it => decide (it.2.money_type = c)).map
              fun it => signedDelta it.2).sum)
      ∧ ((l.filter fun it => decide (it.2.money_type = c)) = []
            → (l.foldl timelineStep s).result c = s.result c)
      ∧ ((l.filter fun it => decide (it.2.money_type = c)) ≠ []
            → ∃ i, ((l.foldl timelineStep s).result c).getLast?
                = some (i, (l.foldl timelineStep s).balances c)) := by
  induction l with
  | nil =>
    intro s c
    refine ⟨by simp, fun _ => rfl, fun h => absurd rfl h⟩
  | cons it rest ih =>
    intro s c
    simp only [List.foldl_cons, List.filter_cons]
    by_cases h : it.2.money_type = c
    · rw [if_pos (by simpa using h)]
      obtain ⟨ihb, ihe, ihn⟩ := ih (timelineStep s it) c
      refine ⟨?_, ?_, ?_⟩
      · rw [ihb, timelineStep_balances s it c h]
        simp only [List.map_cons, List.sum_cons]
        ring
      · intro hcontra
        exact absurd hcontra (by simp)
      · intro _
        by_cases hrest : (rest.filter fun it => decide (it.2.money_type = c)) = []
        · refine ⟨it.1, ?_⟩
          rw [ihe hrest, timelineStep_result s it c h, ihb, hrest]
          simp
        · exact ihn hrest
    · rw [if_neg (by simpa using h)]
      obtain ⟨ihb, ihe, ihn⟩ := ih (timelineStep s it) c
      refine ⟨?_, ?_, ?_⟩
      · rw [ihb, timelineStep_balances_ne s it c h]
      · intro hrest
        rw [ihe hrest, timelineStep_result_ne s it c h]
      · exact ihn

theorem filter_enum_snd (l : List Transaction) (p : Transaction → Bool) :
    (l.enum.filter fun it => p it.2).map Prod.snd = l.filter p := by
  have h := List.filter_map (p := p) Prod.snd l.enum
  rw [List.enum_map_snd] at h
  have hc : (l.enum.filter fun it => p it.2) = l.enum.filter (p ∘ Prod.snd) := rfl
  rw [hc, ← h]

/-- C6: for every currency that appears in the ledger, the aggregate
per-currency balance of the analysis dashboard (sign rule over all
transactions) equals the running balance in the last sample of that
currency's balance timeline (same sign rule over the ledger sorted by
`datetime`). -/
theorem claim_C6_balance_timeline_agree :
    ∀ (txs : List Transaction) (c : MoneyType),
      (txs.filter fun t => decide (t.money_type = c)) ≠ [] →
      ∃ i, (generate_balance_timeline txs c).getLast?
          = some (i, balancesByCurrency txs c) := by
  intro txs c hne
  unfold generate_balance_timeline
  have hperm :
      (List.insertionSort (fun a b => a.datetime ≤ b.datetime) txs).Perm txs :=
    List.perm_insertionSort _ txs
  have hfperm := hperm.filter (fun t => decide (t.money_type = c))
  have hlen : ((List.insertionSort (fun a b => a.datetime ≤ b.datetime) txs).filter
      fun t => decide (t.money_type = c)).length
      = (txs.filter fun t => decide (t.money_type = c)).length :=
    hfperm.length_eq
  have hsne : ((List.insertionSort (fun a b => a.datetime ≤ b.datetime) txs).filter
      fun t => decide (t.money_type = c)) ≠ [] := by
    intro h0
    apply hne
    rw [← List.length_eq_zero, ← hlen, h0]
    rfl
  obtain ⟨hb, _, hn⟩ := timeline_foldl
    (List.insertionSort (fun a b => a.datetime ≤ b.datetime) txs).enum
    ⟨fun _ => 0, fun _ => []⟩ c
  have henne : ((List.insertionSort (fun a b => a.datetime ≤ b.datetime) txs).enum.filter
      fun it => decide (it.2.money_type = c)) ≠ [] := by
    intro h0
    apply hsne
    rw [← filter_enum_snd _ (fun t => decide (t.money_type = c)), h0]
    rfl
  obtain ⟨i, hlast⟩ := hn henne
  refine ⟨i, ?_⟩
  rw [hlast, hb]
  have h1 : (((List.insertionSort (fun a b => a.datetime ≤ b.datetime) txs).enum.filter
        fun it => decide (it.2.money_type = c)).map
      fun it => signedDelta it.2)
      = (((List.insertionSort (fun a b => a.datetime ≤ b.datetime) txs).enum.filter
          fun it => decide (it.2.money_type = c)).map Prod.snd).map signedDelta := by
    rw [List.map_map]
    rfl
  rw [balancesByCurrency_eq, h1,
    filter_enum_snd (List.insertionSort (fun a b => a.datetime ≤ b.datetime) txs)
      (fun t => decide (t.money_type = c))]
  have hsum := (hfperm.map signedDelta).sum_eq
  rw [hsum]
  norm_num

/-- Witness for C6: the agreement theorem applied to the concrete
three-transaction example ledger in currency GEL. -/
theorem claim_C6_witness :
    ∃ i, (generate_balance_timeline exC1 MoneyType.GEL).getLast?
        = some (i, balancesByCurrency exC1 MoneyType.GEL) :=
  claim_C6_balance_timeline_agree exC1 MoneyType.GEL (by decide)

/-! ## Promise-keeping rate (`calculate_promise_keeping_rate`, `src/app.rs`) -/

/-- The running-minimum step of Rust `Iterator::min_by_key` on `datetime`:
keep the current minimum unless the new element's key is strictly smaller
(so the first of several equal minima is kept, as in Rust). -/
def minStep (acc : Option Transaction) (r : Transaction) : Option Transaction :=
  match acc with
  | none => some r
  | some m => if r.datetime < m.datetime then some r else some m

/-- Rust `Iterator::min_by_key` on `datetime`: the first element with the
minimal datetime. -/
def minByDatetime (l : List Transaction) : Option Transaction :=
  l.foldl minStep none

/-- One iteration of the `calculate_promise_keeping_rate` loop body for a
loan with an expected date: find the earliest Returned transaction at or
after the loan, bump `total_promises`, and bump `promises_kept` iff that
return's date is on or before the expected date. -/
def promiseStep (returned : List Transaction) (acc : Nat × Nat)
    (lentTx : Transaction) : Nat × Nat :=
  match lentTx.expected_return_date with
  | none => acc
  | some expected =>
    match minByDatetime (returned.filter fun r =>
        decide (lentTx.datetime ≤ r.datetime)) with
    | some retTx =>
        if retTx.datetime.day ≤ expected then (acc.1 + 1, acc.2 + 1)
        else (acc.1, acc.2 + 1)
    | none => (acc.1, acc.2 + 1)

/-- `calculate_promise_keeping_rate` (`src/app.rs` lines 1581-1618):
restrict to Lent transactions with an expected return date; `None` if
there are none; otherwise fold the per-loan step, returning
`Some (promises_kept, total_promises)` when `total_promises > 0`. -/
def calculate_promise_keeping_rate (lent returned : List Transaction) :
    Option (Nat × Nat) :=
  let lentWithExpected := lent.filter fun t => t.expected_return_date.isSome
  if lentWithExpected.isEmpty then none
  else
    let res := lentWithExpected.foldl (promiseStep returned) (0, 0)
    if res.2 > 0 then some res else none

/-- Whether a loan's promise counts as kept: the earliest Returned
transaction with `occurred_at >=` the loan's exists and its date is on or
before the expected date. -/
def keptForLoan (returned : List Transaction) (lentTx : Transaction) : Bool :=
  match lentTx.expected_return_date with
  | none => false
  | some expected =>
    match minByDatetime (returned.filter fun r =>
        decide (lentTx.datetime ≤ r.datetime)) with
    | some retTx => decide (retTx.datetime.day ≤ expected)
    | none => false

theorem DateTime.le_of_lt {a b : DateTime} (h : a < b) : a ≤ b := by
  rcases h with h | ⟨h, h'⟩
  · exact Or.inl h
  · exact Or.inr ⟨h, Nat.le_of_lt h'⟩

theorem minByDatetime_some_aux (l : List Transaction) :
    ∀ (m r : Transaction),
      l.foldl minStep (some m) = some r →
      (r = m ∨ r ∈ l) ∧ r.datetime ≤ m.datetime
        ∧ ∀ x ∈ l, r.datetime ≤ x.datetime := by
  induction l with
  | nil =>
    intro m r h
    simp only [List.foldl_nil, Option.some.injEq] at h
    subst h
    exact ⟨Or.inl rfl, DateTime.le_refl _, by simp⟩
  | cons x rest ih =>
    intro m r h
    simp only [List.foldl_cons, minStep] at h
    by_cases hlt : x.datetime < m.datetime
    · rw [if_pos hlt] at h
      obtain ⟨hmem, hle, hall⟩ := ih x r h
      refine ⟨?_, ?_, ?_⟩
      · rcases hmem with hrx | hm
        · exact Or.inr (hrx ▸ List.mem_cons_self x rest)
        · exact Or.inr (List.mem_cons_of_mem x hm)
      · exact DateTime.le_trans hle (DateTime.le_of_lt hlt)
      · intro y hy
        rcases List.mem_cons.mp hy with hyx | hyr
        · exact hyx ▸ hle
        · exact hall y hyr
    · rw [if_neg hlt] at h
      obtain ⟨hmem, hle, hall⟩ := ih m r h
      refine ⟨?_, hle, ?_⟩
      · rcases hmem with hrm | hm
        · exact Or.inl hrm
        · exact Or.inr (List.mem_cons_of_mem x hm)
      · intro y hy
        rcases List.mem_cons.mp hy with hyx | hyr
        · exact hyx ▸ DateTime.le_trans hle (DateTime.not_lt.mp hlt)
        · exact hall y hyr

theorem minByDatetime_some {l : List Transaction} {r : Transaction}
    (h : minByDatetime l = some r) :
    r ∈ l ∧ ∀ x ∈ l, r.datetime ≤ x.datetime := by
  cases l with
  | nil => simp [minByDatetime] at h
  | cons x rest =>
    unfold minByDatetime at h
    rw [List.foldl_cons] at h
    simp only [minStep] at h
    obtain ⟨hmem, hle, hall⟩ := minByDatetime_some_aux rest x r h
    refine ⟨?_, ?_⟩
    · rcases hmem with hrx | hm
      · exact hrx ▸ List.mem_cons_self x rest
      · exact List.mem_cons_of_mem x hm
    · intro y hy
      rcases List.mem_cons.mp hy with hyx | hyr
      · exact hyx ▸ hle
      · exact hall y hyr

theorem minByDatetime_none_iff (l : List Transaction) :
    minByDatetime l = none ↔ l = [] := by
  cases l with
  | nil => simp [minByDatetime]
  | cons x rest =>
    simp only [minByDatetime, List.foldl_cons, minStep]
    constructor
    · intro h
      exfalso
      -- a fold starting from some never returns none
      have key : ∀ (l' : List Transaction) (m : Transaction),
          l'.foldl minStep (some m) ≠ none := by
        intro l'
        induction l' with
        | nil => intro m hc; simp at hc
        | cons y ys ih =>
          intro m hc
          rw [List.foldl_cons] at hc
          simp only [minStep] at hc
          by_cases hlt : y.datetime < m.datetime
          · rw [if_pos hlt] at hc; exact ih y hc
          · rw [if_neg hlt] at hc; exact ih m hc
      exact key rest x h
    · intro h; exact absurd h (by simp)

theorem promise_foldl (returned : List Transaction) (l : List Transaction)
    (hall : ∀ t ∈ l, t.expected_return_date.isSome = true) :
    ∀ acc : Nat × Nat,
      l.foldl (promiseStep returned) acc
        = (acc.1 + l.countP (keptForLoan returned), acc.2 + l.length) := by
  induction l with
  | nil => intro acc; simp
  | cons t rest ih =>
    intro acc
    have htex := hall t (List.mem_cons_self t rest)
    have hrest : ∀ x ∈ rest, x.expected_return_date.isSome = true :=
      fun x hx => hall x (List.mem_cons_of_mem t hx)
    obtain ⟨e, he⟩ := Option.isSome_iff_exists.mp htex
    simp only [List.foldl_cons, List.countP_cons, List.length_cons]
    rw [ih hrest]
    have hstep : promiseStep returned acc t
        = (acc.1 + (if keptForLoan returned t then 1 else 0), acc.2 + 1) := by
      unfold promiseStep keptForLoan
      rw [he]
      cases hmin : minByDatetime (returned.filter fun r =>
          decide (t.datetime ≤ r.datetime)) with
      | none => simp
      | some retTx =>
        by_cases hk : retTx.datetime.day ≤ e
        · simp [hk]
        · simp [hk]
    rw [hstep]
    by_cases hk : keptForLoan returned t
    · simp only [hk, if_true, Prod.ext_iff]
      refine ⟨by omega, by omega⟩
    · simp only [hk, if_false, Prod.ext_iff]
      refine ⟨by omega, by omega⟩

theorem promise_rate_eq (lent returned : List Transaction) :
    calculate_promise_keeping_rate lent returned
      = if (lent.filter fun t => t.expected_return_date.isSome) = [] then none
        else some
          ((lent.filter fun t => t.expected_return_date.isSome).countP
              (keptForLoan returned),
            (lent.filter fun t => t.expected_return_date.isSome).length) := by
  unfold calculate_promise_keeping_rate
  have hall : ∀ t ∈ (lent.filter fun t => t.expected_return_date.isSome),
      t.expected_return_date.isSome = true :=
    fun t ht => (List.mem_filter.mp ht).2
  dsimp only
  rw [promise_foldl returned _ hall (0, 0)]
  by_cases hemp : (lent.filter fun t => t.expected_return_date.isSome) = []
  · simp [hemp]
  · have hlen : 0 < (lent.filter fun t => t.expected_return_date.isSome).length :=
      List.length_pos.mpr hemp
    rw [if_neg hemp]
    rw [if_neg (by simpa [List.isEmpty_iff] using hemp)]
    rw [if_pos (by simpa using hlen)]
    simp

-- a single return kept against two different loans (returns are not
-- consumed by matching)
def exC7lent : List Transaction :=
  [⟨"Y", 10, MoneyType.USD, Direction.Lent, ⟨0, 0⟩, some 10, none, []⟩,
   ⟨"Y", 20, MoneyType.USD, Direction.Lent, ⟨1, 0⟩, some 10, none, []⟩]

def exC7ret : List Transaction :=
  [⟨"Y", 5, MoneyType.USD, Direction.Returned, ⟨2, 0⟩, none, none, []⟩]

/-- C7: the promise-keeping computation counts exactly the Lent
transactions carrying an expected return date (`total`); a loan is counted
as kept iff the earliest Returned transaction with `occurred_at` at or
after the loan exists and has its date on or before the expected date
(`keptForLoan`, built on `minByDatetime`, whose returned element is proved
to be an actual minimum); the result is `none` exactly when no loan
carries an expected date; and returns are not consumed: in the concrete
example one return is matched by both loans, giving `(2, 2)`. -/
theorem claim_C7_promise_keeping :
    (∀ lent returned : List Transaction,
        calculate_promise_keeping_rate lent returned = none
          ↔ (lent.filter fun t => t.expected_return_date.isSome) = [])
    ∧ (∀ (lent returned : List Transaction) (kept total : Nat),
        calculate_promise_keeping_rate lent returned = some (kept, total) →
          total = (lent.filter fun t => t.expected_return_date.isSome).length
          ∧ kept = (lent.filter fun t => t.expected_return_date.isSome).countP
              (keptForLoan returned))
    ∧ (∀ (l : List Transaction) (r : Transaction),
        minByDatetime l = some r → r ∈ l ∧ ∀ x ∈ l, r.datetime ≤ x.datetime)
    ∧ (∀ l : List Transaction, minByDatetime l = none ↔ l = [])
    ∧ calculate_promise_keeping_rate exC7lent exC7ret = some (2, 2) := by
  refine ⟨?_, ?_, fun l r h => minByDatetime_some h,
    fun l => minByDatetime_none_iff l, by decide⟩
  · intro lent returned
    rw [promise_rate_eq]
    by_cases hemp : (lent.filter fun t => t.expected_return_date.isSome) = []
    · simp [hemp]
    · simp [hemp]
  · intro lent returned kept total h
    rw [promise_rate_eq] at h
    by_cases hemp : (lent.filter fun t => t.expected_return_date.isSome) = []
    · rw [if_pos hemp] at h; exact absurd h (by simp)
    · rw [if_neg hemp] at h
      have := Option.some.injEq _ _ ▸ h
      injection h with h2
      rw [Prod.mk.injEq] at h2
      exact ⟨h2.2.symm, h2.1.symm⟩

/-- Witness for C7: the count characterization applied to the concrete
two-loan, one-return example, and the minimum characterization applied to
that example's return list. -/
theorem claim_C7_witness :
    (2 = (exC7lent.filter fun t => t.expected_return_date.isSome).length
      ∧ 2 = (exC7lent.filter fun t => t.expected_return_date.isSome).countP
          (keptForLoan exC7ret))
    ∧ ((exC7ret.get ⟨0, by decide⟩) ∈ exC7ret
        ∧ ∀ x ∈ exC7ret, (exC7ret.get ⟨0, by decide⟩).datetime ≤ x.datetime) :=
  ⟨claim_C7_promise_keeping.2.1 exC7lent exC7ret 2 2 (by decide),
   claim_C7_promise_keeping.2.2.1 exC7ret (exC7ret.get ⟨0, by decide⟩) (by decide)⟩

/-! ## Average return latency (`calculate_avg_return_time`, `src/app.rs`) -/

/-- The running-maximum step of Rust `Iterator::max_by_key` on `datetime`:
replace the current maximum when the new element's key is at least as
large (so the last of several equal maxima is kept, as in Rust). -/
def maxStep (acc : Option Transaction) (x : Transaction) : Option Transaction :=
  match acc with
  | none => some x
  | some m => if m.datetime ≤ x.datetime then some x else some m

/-- Rust `Iterator::max_by_key` on `datetime`: the last element with the
maximal datetime. -/
def maxByDatetime (l : List Transaction) : Option Transaction :=
  l.foldl maxStep none

/-- The loan matched to a return by `calculate_avg_return_time`: the Lent
transaction with the latest `datetime` that is still `<=` the return's. -/
def latestLentBefore (lent : List Transaction) (ret : Transaction) :
    Option Transaction :=
  maxByDatetime (lent.filter fun l => decide (l.datetime ≤ ret.datetime))

/-- One iteration of the `calculate_avg_return_time` loop: if the return
has an eligible prior loan, add the whole-day date difference and bump the
match count; otherwise leave the accumulator unchanged. -/
def avgStep (lent : List Transaction) (acc : Int × Nat)
    (ret : Transaction) : Int × Nat :=
  match latestLentBefore lent ret with
  | some lentTx => (acc.1 + (ret.datetime.day - lentTx.datetime.day), acc.2 + 1)
  | none => acc

/-- `calculate_avg_return_time` (`src/app.rs` lines 1554-1579): `None` when
either list is empty; otherwise fold the per-return step and return
`Some (total_days / count)` when at least one return was matched, `None`
otherwise. -/
def calculate_avg_return_time (lent returned : List Transaction) :
    Option Rat :=
  if lent.isEmpty || returned.isEmpty then none
  else
    let res := returned.foldl (avgStep lent) (0, 0)
    if res.2 > 0 then some ((res.1 : Rat) / (res.2 : Rat)) else none

/-- Whether a return has an eligible prior loan. -/
def hasEligibleLoan (lent : List Transaction) (ret : Transaction) : Bool :=
  (latestLentBefore lent ret).isSome

/-- The whole-day latency contributed by a matched return. -/
def dayDiff (lent : List Transaction) (ret : Transaction) : Int :=
  match latestLentBefore lent ret with
  | some lentTx => ret.datetime.day - lentTx.datetime.day
  | none => 0

theorem avg_foldl (lent : List Transaction) (l : List Transaction) :
    ∀ acc : Int × Nat,
      l.foldl (avgStep lent) acc
        = (acc.1 + ((l.filter (hasEligibleLoan lent)).map (dayDiff lent)).sum,
           acc.2 + l.countP (hasEligibleLoan lent)) := by
  induction l with
  | nil => intro acc; simp
  | cons ret rest ih =>
    intro acc
    simp only [List.foldl_cons, List.filter_cons, List.countP_cons]
    cases hm : latestLentBefore lent ret with
    | none =>
      have helig : hasEligibleLoan lent ret = false := by
        unfold hasEligibleLoan; rw [hm]; rfl
      rw [helig]
      have hstep : avgStep lent acc ret = acc := by
        unfold avgStep; rw [hm]
      rw [hstep, ih]
      simp
    | some lentTx =>
      have helig : hasEligibleLoan lent ret = true := by
        unfold hasEligibleLoan; rw [hm]; rfl
      rw [helig]
      have hstep : avgStep lent acc ret
          = (acc.1 + (ret.datetime.day - lentTx.datetime.day), acc.2 + 1) := by
        unfold avgStep; rw [hm]
      have hdiff : dayDiff lent ret = ret.datetime.day - lentTx.datetime.day := by
        unfold dayDiff; rw [hm]
      rw [hstep, ih]
      simp only [if_true, List.map_cons, List.sum_cons, hdiff, Prod.ext_iff]
      constructor
      · ring
      · omega

theorem maxByDatetime_some_aux (l : List Transaction) :
    ∀ (m r : Transaction),
      l.foldl maxStep (some m) = some r →
      (r = m ∨ r ∈ l) ∧ m.datetime ≤ r.datetime
        ∧ ∀ x ∈ l, x.datetime ≤ r.datetime := by
  induction l with
  | nil =>
    intro m r h
    simp only [List.foldl_nil, Option.some.injEq] at h
    subst h
    exact ⟨Or.inl rfl, DateTime.le_refl _, by simp⟩
  | cons x rest ih =>
    intro m r h
    simp only [List.foldl_cons, maxStep] at h
    by_cases hle : m.datetime ≤ x.datetime
    · rw [if_pos hle] at h
      obtain ⟨hmem, hge, hall⟩ := ih x r h
      refine ⟨?_, DateTime.le_trans hle hge, ?_⟩
      · rcases hmem with hrx | hm
        · exact Or.inr (hrx ▸ List.mem_cons_self x rest)
        · exact Or.inr (List.mem_cons_of_mem x hm)
      · intro y hy
        rcases List.mem_cons.mp hy with hyx | hyr
        · exact hyx ▸ hge
        · exact hall y hyr
    · rw [if_neg hle] at h
      obtain ⟨hmem, hge, hall⟩ := ih m r h
      have hxm : x.datetime ≤ m.datetime := by
        rcases DateTime.le_total m.datetime x.datetime with hc | hc
        · exact absurd hc hle
        · exact hc
      refine ⟨?_, hge, ?_⟩
      · rcases hmem with hrm | hm
        · exact Or.inl hrm
        · exact Or.inr (List.mem_cons_of_mem x hm)
      · intro y hy
        rcases List.mem_cons.mp hy with hyx | hyr
        · exact hyx ▸ DateTime.le_trans hxm hge
        · exact hall y hyr

theorem maxByDatetime_some {l : List Transaction} {r : Transaction}
    (h : maxByDatetime l = some r) :
    r ∈ l ∧ ∀ x ∈ l, x.datetime ≤ r.datetime := by
  cases l with
  | nil => simp [maxByDatetime] at h
  | cons x rest =>
    unfold maxByDatetime at h
    rw [List.foldl_cons] at h
    simp only [maxStep] at h
    obtain ⟨hmem, hge, hall⟩ := maxByDatetime_some_aux rest x r h
    refine ⟨?_, ?_⟩
    · rcases hmem with hrx | hm
      · exact hrx ▸ List.mem_cons_self x rest
      · exact List.mem_cons_of_mem x hm
    · intro y hy
      rcases List.mem_cons.mp hy with hyx | hyr
      · exact hyx ▸ hge
      · exact hall y hyr

theorem maxByDatetime_none_iff (l : List Transaction) :
    maxByDatetime l = none ↔ l = [] := by
  cases l with
  | nil => simp [maxByDatetime]
  | cons x rest =>
    simp only [maxByDatetime, List.foldl_cons, maxStep]
    constructor
    · intro h
      exfalso
      have key : ∀ (l' : List Transaction) (m : Transaction),
          l'.foldl maxStep (some m) ≠ none := by
        intro l'
        induction l' with
        | nil => intro m hc; simp at hc
        | cons y ys ih =>
          intro m hc
          rw [List.foldl_cons] at hc
          simp only [maxStep] at hc
          by_cases hle : m.datetime ≤ y.datetime
          · rw [if_pos hle] at hc; exact ih y hc
          · rw [if_neg hle] at hc; exact ih m hc
      exact key rest x h
    · intro h; exact absurd h (by simp)

theorem avg_time_eq (lent returned : List Transaction) :
    calculate_avg_return_time lent returned
      = if lent.isEmpty || returned.isEmpty then none
        else if 0 < returned.countP (hasEligibleLoan lent) then
          some (((((returned.filter (hasEligibleLoan lent)).map
              (dayDiff lent)).sum : Int) : Rat)
            / ((returned.countP (hasEligibleLoan lent) : Nat) : Rat))
        else none := by
  unfold calculate_avg_return_time
  by_cases hemp : lent.isEmpty || returned.isEmpty
  · rw [if_pos hemp, if_pos hemp]
  · rw [if_neg hemp, if_neg hemp]
    dsimp only
    rw [avg_foldl lent returned (0, 0)]
    by_cases hcnt : 0 < returned.countP (hasEligibleLoan lent)
    · rw [if_pos (by simpa using hcnt), if_pos hcnt]
      norm_num
    · rw [if_neg (by simpa using hcnt), if_neg hcnt]

-- a lone USD loan matched by a lone EUR return five days later
def exC8lent : List Transaction :=
  [⟨"Z", 10, MoneyType.USD, Direction.Lent, ⟨0, 0⟩, none, none, []⟩]

def exC8ret : List Transaction :=
  [⟨"Z", 10, MoneyType.EUR, Direction.Returned, ⟨5, 0⟩, none, none, []⟩]

/-- C8: the average return latency matches each Returned transaction with
the Lent transaction having the latest `occurred_at` still `<=` the
return's (`latestLentBefore`, built on `maxByDatetime`, whose returned
element is proved to be an actual maximum among eligible loans), averages
the whole-day date differences over the matched returns, and is `None`
exactly when the lent list is empty, the returned list is empty, or no
return has an eligible prior loan — never `0` in those cases. -/
theorem claim_C8_avg_return_latency :
    (∀ lent returned : List Transaction,
        calculate_avg_return_time lent returned = none
          ↔ (lent = [] ∨ returned = []
              ∨ ∀ r ∈ returned, latestLentBefore lent r = none))
    ∧ (∀ (lent returned : List Transaction) (v : Rat),
        calculate_avg_return_time lent returned = some v →
          lent ≠ [] ∧ returned ≠ []
          ∧ 0 < returned.countP (hasEligibleLoan lent)
          ∧ v = ((((returned.filter (hasEligibleLoan lent)).map
                (dayDiff lent)).sum : Int) : Rat)
              / ((returned.countP (hasEligibleLoan lent) : Nat) : Rat))
    ∧ (∀ (l : List Transaction) (r : Transaction),
        maxByDatetime l = some r → r ∈ l ∧ ∀ x ∈ l, x.datetime ≤ r.datetime)
    ∧ (∀ l : List Transaction, maxByDatetime l = none ↔ l = []) := by
  refine ⟨?_, ?_, fun l r h => maxByDatetime_some h,
    fun l => maxByDatetime_none_iff l⟩
  · intro lent returned
    rw [avg_time_eq]
    by_cases hemp : lent.isEmpty || returned.isEmpty
    · rw [if_pos hemp]
      simp only [Bool.or_eq_true, List.isEmpty_iff] at hemp
      simp [hemp]
      rcases hemp with h | h
      · exact Or.inl h
      · exact Or.inr (Or.inl h)
    · rw [if_neg hemp]
      simp only [Bool.or_eq_true, List.isEmpty_iff] at hemp
      push_neg at hemp
      by_cases hcnt : 0 < returned.countP (hasEligibleLoan lent)
      · rw [if_pos hcnt]
        simp only [reduceCtorEq, false_iff]
        push_neg
        refine ⟨hemp.1, hemp.2, ?_⟩
        rw [List.countP_pos] at hcnt
        obtain ⟨r, hr, hp⟩ := hcnt
        refine ⟨r, hr, ?_⟩
        unfold hasEligibleLoan at hp
        intro hc
        rw [hc] at hp
        exact absurd hp (by simp)
      · rw [if_neg hcnt]
        simp only [true_iff]
        refine Or.inr (Or.inr ?_)
        intro r hr
        have h0 : returned.countP (hasEligibleLoan lent) = 0 := by omega
        rw [List.countP_eq_zero] at h0
        have := h0 r hr
        unfold hasEligibleLoan at this
        cases hm : latestLentBefore lent r with
        | none => rfl
        | some y => rw [hm] at this; exact absurd (by simp : (some y).isSome = true) this
  · intro lent returned v h
    rw [avg_time_eq] at h
    by_cases hemp : lent.isEmpty || returned.isEmpty
    · rw [if_pos hemp] at h; exact absurd h (by simp)
    · rw [if_neg hemp] at h
      simp only [Bool.or_eq_true, List.isEmpty_iff] at hemp
      push_neg at hemp
      by_cases hcnt : 0 < returned.countP (hasEligibleLoan lent)
      · rw [if_pos hcnt] at h
        injection h with h2
        exact ⟨hemp.1, hemp.2, hcnt, h2.symm⟩
      · rw [if_neg hcnt] at h; exact absurd h (by simp)

/-- Witness for C8: the characterization applied to a one-loan, one-return
example (latency 5 days), and the maximum characterization applied to the
example's loan list. -/
theorem claim_C8_witness :
    (exC8lent ≠ [] ∧ exC8ret ≠ []
      ∧ 0 < exC8ret.countP (hasEligibleLoan exC8lent)
      ∧ (5 : Rat) = ((((exC8ret.filter (hasEligibleLoan exC8lent)).map
            (dayDiff exC8lent)).sum : Int) : Rat)
          / ((exC8ret.countP (hasEligibleLoan exC8lent) : Nat) : Rat))
    ∧ ((exC8lent.get ⟨0, by decide⟩) ∈ exC8lent
        ∧ ∀ x ∈ exC8lent, x.datetime ≤ (exC8lent.get ⟨0, by decide⟩).datetime) :=
  ⟨claim_C8_avg_return_latency.2.1 exC8lent exC8ret 5 (by decide),
   claim_C8_avg_return_latency.2.2.1 exC8lent (exC8lent.get ⟨0, by decide⟩)
     (by decide)⟩

/-! ## Per-person statistics (`BankingApp::calculate_person_stats`) -/

/-- Embedding of `PersonStats` as used by `calculate_person_stats` in
`src/app.rs` (its `deadline_changes_count` field appears in the app code
but not in the stale `src/models.rs`; the `HashSet` of currencies becomes
a `Finset`). -/
structure PersonStats where
  lent : Rat
  borrowed : Rat
  returned : Rat
  repaid : Rat
  outstanding : Rat
  lent_transactions : List Transaction
  return_transactions : List Transaction
  currencies : Finset MoneyType
  deadline_changes_count : Nat

/-- `PersonStats::default()`: all totals zero, empty lists and set. -/
def emptyStats : PersonStats := ⟨0, 0, 0, 0, 0, [], [], ∅, 0⟩

/-- One iteration of the `calculate_person_stats` loop
(`src/app.rs` lines 940-969): update the entry of the transaction's
person — record the currency, add the deadline-change count, and
accumulate amount, outstanding and the Lent/Returned subsequences
according to the direction. -/
def personStep (m : String → PersonStats) (t : Transaction) :
    String → PersonStats :=
  fun name =>
    if name = t.person then
      let s0 := m t.person
      let s := { s0 with
        currencies := insert t.money_type s0.currencies,
        deadline_changes_count :=
          s0.deadline_changes_count + t.deadline_changes.length }
      match t.direction with
      | Direction.Lent =>
          { s with lent := s.lent + t.amount,
                   outstanding := s.outstanding + t.amount,
                   lent_transactions := s.lent_transactions ++ [t] }
      | Direction.Borrowed =>
          { s with borrowed := s.borrowed + t.amount,
                   outstanding := s.outstanding - t.amount }
      | Direction.Returned =>
          { s with returned := s.returned + t.amount,
                   outstanding := s.outstanding - t.amount,
                   return_transactions := s.return_transactions ++ [t] }
      | Direction.Repaid =>
          { s with repaid := s.repaid + t.amount,
                   outstanding := s.outstanding + t.amount }
    else m name

/-- `BankingApp::calculate_person_stats`: fold the per-transaction update
over the ledger, starting from defaulted entries (the `HashMap` keyed by
person name becomes a total function). -/
def calculate_person_stats (txs : List Transaction) : String → PersonStats :=
  txs.foldl personStep (fun _ => emptyStats)

theorem personStep_lent (m : String → PersonStats) (t : Transaction)
    (name : String) :
    (personStep m t name).lent_transactions
      = if name = t.person ∧ t.direction = Direction.Lent
        then (m name).lent_transactions ++ [t]
        else (m name).lent_transactions := by
  unfold personStep
  by_cases h : name = t.person
  · rw [if_pos h]
    cases hd : t.direction <;> subst h <;> simp [hd]
  · rw [if_neg h, if_neg (fun hc => h hc.1)]

theorem personStep_ret (m : String → PersonStats) (t : Transaction)
    (name : String) :
    (personStep m t name).return_transactions
      = if name = t.person ∧ t.direction = Direction.Returned
        then (m name).return_transactions ++ [t]
        else (m name).return_transactions := by
  unfold personStep
  by_cases h : name = t.person
  · rw [if_pos h]
    cases hd : t.direction <;> subst h <;> simp [hd]
  · rw [if_neg h, if_neg (fun hc => h hc.1)]

theorem person_foldl_lent (txs : List Transaction) :
    ∀ (m : String → PersonStats) (p : String),
      (txs.foldl personStep m p).lent_transactions
        = (m p).lent_transactions
          ++ txs.filter fun t =>
              decide (t.person = p) && decide (t.direction = Direction.Lent) := by
  induction txs with
  | nil => intro m p; simp
  | cons t rest ih =>
    intro m p
    simp only [List.foldl_cons, List.filter_cons]
    rw [ih]
    rw [personStep_lent]
    by_cases h : p = t.person ∧ t.direction = Direction.Lent
    · rw [if_pos h, if_pos (by simp [h.1, h.2])]
      simp
    · rw [if_neg h, if_neg (by
        simp only [Bool.and_eq_true, decide_eq_true_eq]
        intro hc
        exact h ⟨hc.1.symm, hc.2⟩)]

theorem person_foldl_ret (txs : List Transaction) :
    ∀ (m : String → PersonStats) (p : String),
      (txs.foldl personStep m p).return_transactions
        = (m p).return_transactions
          ++ txs.filter fun t =>
              decide (t.person = p) && decide (t.direction = Direction.Returned) := by
  induction txs with
  | nil => intro m p; simp
  | cons t rest ih =>
    intro m p
    simp only [List.foldl_cons, List.filter_cons]
    rw [ih]
    rw [personStep_ret]
    by_cases h : p = t.person ∧ t.direction = Direction.Returned
    · rw [if_pos h, if_pos (by simp [h.1, h.2])]
      simp
    · rw [if_neg h, if_neg (by
        simp only [Bool.and_eq_true, decide_eq_true_eq]
        intro hc
        exact h ⟨hc.1.symm, hc.2⟩)]

-- one ledger mixing a USD loan (with expected date) and a EUR return for
-- the same person
def exC10 : List Transaction :=
  [⟨"Z", 10, MoneyType.USD, Direction.Lent, ⟨0, 0⟩, some 10, none, []⟩,
   ⟨"Z", 10, MoneyType.EUR, Direction.Returned, ⟨5, 0⟩, none, none, []⟩]

/-- C10: the per-person Lent and Returned subsequences built by
`calculate_person_stats` are filtered by person and direction only — no
currency appears in the filter, so they pool all of that person's
currencies; consequently, on a ledger whose only loan is in USD and whose
only return is in EUR, the return is matched against the loan both by the
average-latency computation (5 days) and by the promise-keeping
computation (1 promise kept of 1). -/
theorem claim_C10_stats_ignore_currency :
    (∀ (txs : List Transaction) (p : String),
        (calculate_person_stats txs p).lent_transactions
          = txs.filter fun t =>
              decide (t.person = p) && decide (t.direction = Direction.Lent))
    ∧ (∀ (txs : List Transaction) (p : String),
        (calculate_person_stats txs p).return_transactions
          = txs.filter fun t =>
              decide (t.person = p) && decide (t.direction = Direction.Returned))
    ∧ calculate_avg_return_time
        (calculate_person_stats exC10 "Z").lent_transactions
        (calculate_person_stats exC10 "Z").return_transactions = some 5
    ∧ calculate_promise_keeping_rate
        (calculate_person_stats exC10 "Z").lent_transactions
        (calculate_person_stats exC10 "Z").return_transactions = some (1, 1) := by
  refine ⟨?_, ?_, by decide, by decide⟩
  · intro txs p
    unfold calculate_person_stats
    rw [person_foldl_lent]
    rfl
  · intro txs p
    unfold calculate_person_stats
    rw [person_foldl_ret]
    rfl


/-! ## Ledger store (`Database` in `src/database.rs`)

The file system is embedded as the primary file's content (if present)
plus the listing of the backup directory; `serde_json` is embedded as an
abstract serialize/parse pair passed to `load`/`save`; the stable sorts
of path strings and modification times are embedded as insertion sorts
(also stable). -/

/-- Lexicographic comparison of character lists, the order underlying
Rust's `str` ordering (byte-wise UTF-8 comparison agrees with code-point
comparison). -/
def charsLe : List Char → List Char → Bool
  | [], _ => true
  | _ :: _, [] => false
  | a :: as, b :: bs => if a = b then charsLe as bs else decide (a < b)

/-- Lexicographic `<=` on strings. -/
def strLe (a b : String) : Bool := charsLe a.toList b.toList

/-- Splitting a character list on a separator (the `/` of a path). -/
def splitOnChar (sep : Char) : List Char → List (List Char)
  | [] => [[]]
  | c :: cs =>
    let r := splitOnChar sep cs
    if c = sep then [] :: r
    else
      match r with
      | [] => [[c]]
      | h :: t => (c :: h) :: t

/-- The extension splitter behind Rust `Path::extension`: split a
character list at its last `'.'`, returning the parts before and after;
`none` when no `'.'` occurs. -/
def extSplit : List Char → Option (List Char × List Char)
  | [] => none
  | c :: cs =>
    match extSplit cs with
    | some (st, e) => some (c :: st, e)
    | none => if c = '.' then some ([], cs) else none

/-- Rust `Path::extension` on a file name: the part after the last `'.'`,
except that a lone leading `'.'` (hidden file) yields no extension. -/
def extnOf (name : String) : Option String :=
  match extSplit name.toList with
  | some (stem, ext) => if stem = [] then none else some (String.mk ext)
  | none => none

/-- The `path.extension()? == "json"` test used by `get_most_recent_backup`
and `cleanup_old_backups`. -/
def isJsonFile (name : String) : Bool := extnOf name == some "json"

/-- Rust `Path::file_name` on a path string: the last non-empty, non-`.`
component of the `/`-separated path; `none` when there is none or when it
is `..`. -/
def fileNameOf (path : String) : Option String :=
  match (((splitOnChar '/' path.toList).map String.mk).filter fun s =>
      !(decide (s = "") || decide (s = "."))).getLast? with
  | none => none
  | some c => if c = ".." then none else some c

/-- A file in the backup directory: its name, content, and modification
time. -/
structure BFile where
  name : String
  content : String
  mtime : Nat
deriving DecidableEq, Repr

/-- The file-system state touched by `Database`: the primary
`transactions.json` content (if the file exists) and the listing of the
`backups/` directory. -/
structure FS where
  primary : Option String
  backups : List BFile
deriving DecidableEq, Repr

/-- `MAX_BACKUPS` from `src/database.rs`. -/
def MAX_BACKUPS : Nat := 50

/-- The backup filename format of `Database::save`:
`transactions_backup_{timestamp}.json`. -/
def backupName (ts : String) : String :=
  "transactions_backup_" ++ ts ++ ".json"

/-- `fs::write`/`fs::copy` into the backup directory: overwrite the file
of that name if it exists, else append a new one. -/
def writeFile (backups : List BFile) (name content : String) (m : Nat) :
    List BFile :=
  if backups.any fun f => f.name == name then
    backups.map fun f => if f.name == name then ⟨name, content, m⟩ else f
  else backups ++ [⟨name, content, m⟩]

/-- `Database::get_most_recent_backup`: list the `.json` files of the
backup directory as path strings, sort (stably, lexicographically),
reverse, and take the first — the lexicographically greatest path. -/
def get_most_recent_backup (fs : FS) : Option String :=
  let backups := (fs.backups.filter fun f => isJsonFile f.name).map
    fun f => "backups/" ++ f.name
  ((List.insertionSort (fun a b => strLe a b = true) backups).reverse).head?

/-- `fs::read_to_string` of a backup path. -/
def readBackup (fs : FS) (path : String) : Option String :=
  (fs.backups.find? fun f => ("backups/" ++ f.name) == path).map
    fun f => f.content

/-- `Database::cleanup_old_backups`: collect the `.json` files of the
backup directory with their modification times, sort descending by
modification time (stable), and delete every file after the first
`MAX_BACKUPS`. Non-`.json` files are untouched. -/
def cleanup_old_backups (backups : List BFile) : List BFile :=
  let json := backups.filter fun f => isJsonFile f.name
  let sorted := List.insertionSort (fun a b => b.mtime ≤ a.mtime) json
  let toDelete := sorted.drop MAX_BACKUPS
  backups.filter fun f => !(toDelete.any fun d => d.name == f.name)

/-- The backup-recovery half of `Database::load`: if the most recent
backup exists, reads and parses, copy its raw content over the primary
location and return it; otherwise return `Database::default()` (the empty
transaction list). -/
def Database.loadBackup (parse : String → Option (List Transaction))
    (fs : FS) : List Transaction × FS :=
  match get_most_recent_backup fs with
  | some backup =>
    match readBackup fs backup with
    | some data =>
      match parse data with
      | some db => (db, { fs with primary := some data })
      | none => ([], fs)
    | none => ([], fs)
  | none => ([], fs)

/-- `Database::load` (success path of each I/O call): if the primary file
exists and parses, return it unchanged; otherwise fall back to the most
recent backup. Returns the loaded transaction list together with the
resulting file system; it never fails. -/
def Database.load (parse : String → Option (List Transaction)) (fs : FS) :
    List Transaction × FS :=
  match fs.primary with
  | some data =>
    match parse data with
    | some db => (db, fs)
    | none => Database.loadBackup parse fs
  | none => Database.loadBackup parse fs

/-- `Database::save` (success path): if a primary file exists, copy it
into the backup directory under the first timestamped name; serialize the
ledger and overwrite the primary file; write the serialization as a second
backup under the second timestamped name; prune old backups. The two
`Local::now()` timestamps and the two files' modification times enter as
parameters. -/
def Database.save (serialize : List Transaction → String)
    (txs : List Transaction) (fs : FS) (ts1 ts2 : String) (m1 m2 : Nat) :
    FS :=
  let backups1 :=
    match fs.primary with
    | some content => writeFile fs.backups (backupName ts1) content m1
    | none => fs.backups
  let json := serialize txs
  let backups2 := writeFile backups1 (backupName ts2) json m2
  { primary := some json, backups := cleanup_old_backups backups2 }

/-- `Database::copy_attachment_to_storage` (success path of the copy):
derive the destination name `{timestamp}_{filename}.{extension}` — where
`extension` falls back to `"png"` — and return the destination path;
error when the file name cannot be determined. -/
def copy_attachment_to_storage (source_path : String) (ts : String) :
    Except String String :=
  match fileNameOf source_path with
  | none => Except.error "Invalid filename"
  | some filename =>
    let extension := (extnOf filename).getD "png"
    let new_filename := ts ++ "_" ++ filename ++ "." ++ extension
    Except.ok ("attachments/" ++ new_filename)

-- sanity checks of the embedding
example : extnOf "photo.png" = some "png" := by decide
example : extnOf ".json" = none := by decide
example : extnOf "foo" = none := by decide
example : isJsonFile "transactions_backup_1.json" = true := by decide
example : isJsonFile "x.txt" = false := by decide
example : fileNameOf "/a/b/photo.png" = some "photo.png" := by decide
example : fileNameOf "/" = none := by decide
example : copy_attachment_to_storage "/a/photo.png" "ts"
    = Except.ok "attachments/ts_photo.png.png" := rfl
example : get_most_recent_backup ⟨none, [⟨"a.json", "x", 0⟩, ⟨"b.json", "y", 1⟩]⟩
    = some "backups/b.json" := by decide
example :
    (cleanup_old_backups ((List.range 52).map
      fun i => ⟨"b" ++ toString i ++ ".json", "c", i⟩)).length = 50 := by decide

theorem charsLe_refl (l : List Char) : charsLe l l = true := by
  induction l with
  | nil => rfl
  | cons c cs ih => simp [charsLe, ih]

theorem charsLe_total (a b : List Char) :
    charsLe a b = true ∨ charsLe b a = true := by
  induction a generalizing b with
  | nil => exact Or.inl rfl
  | cons x xs ih =>
    cases b with
    | nil => exact Or.inr rfl
    | cons y ys =>
      by_cases hxy : x = y
      · subst hxy
        simp only [charsLe, if_pos rfl]
        exact ih ys
      · rcases lt_trichotomy x y with h | h | h
        · exact Or.inl (by simp [charsLe, hxy, h])
        · exact absurd h hxy
        · refine Or.inr ?_
          simp only [charsLe]
          rw [if_neg (fun hc => hxy hc.symm), decide_eq_true_eq]
          exact h

theorem charsLe_trans {a b c : List Char} (h1 : charsLe a b = true)
    (h2 : charsLe b c = true) : charsLe a c = true := by
  induction a generalizing b c with
  | nil => rfl
  | cons x xs ih =>
    cases b with
    | nil => simp [charsLe] at h1
    | cons y ys =>
      cases c with
      | nil => simp [charsLe] at h2
      | cons z zs =>
        simp only [charsLe] at h1 h2 ⊢
        by_cases hxy : x = y
        · rw [if_pos hxy] at h1
          by_cases hyz : y = z
          · rw [if_pos hyz] at h2
            rw [if_pos (hxy.trans hyz)]
            exact ih h1 h2
          · rw [if_neg hyz] at h2
            rw [decide_eq_true_eq] at h2
            rw [if_neg (hxy ▸ hyz), decide_eq_true_eq]
            exact hxy ▸ h2
        · rw [if_neg hxy, decide_eq_true_eq] at h1
          by_cases hyz : y = z
          · rw [if_neg (hyz ▸ hxy), decide_eq_true_eq]
            exact hyz ▸ h1
          · rw [if_neg hyz, decide_eq_true_eq] at h2
            have hxz : x < z := lt_trans h1 h2
            rw [if_neg (fun hc => absurd (hc ▸ h2) (not_lt_of_gt (hc ▸ h1))),
              decide_eq_true_eq]
            exact hxz

instance : IsTotal String (fun a b => strLe a b = true) :=
  ⟨fun a b => charsLe_total a.toList b.toList⟩

instance : IsTrans String (fun a b => strLe a b = true) :=
  ⟨fun _ _ _ h1 h2 => charsLe_trans h1 h2⟩

theorem strLe_refl (a : String) : strLe a a = true := charsLe_refl _

theorem sorted_all_le_getLast {r : String → String → Prop}
    [IsTrans String r] (hrefl : ∀ a, r a a) :
    ∀ (l : List String) (p : String), l.Sorted r → l.getLast? = some p →
      ∀ x ∈ l, r x p := by
  intro l
  induction l with
  | nil => intro p _ hp; simp at hp
  | cons a rest ih =>
    intro p hs hp x hx
    rw [List.sorted_cons] at hs
    by_cases hrest : rest = []
    · subst hrest
      simp only [List.getLast?_cons, List.getLast?_nil, Option.getD_none,
        Option.some.injEq] at hp
      rcases List.mem_singleton.mp hx with hxa
      rw [hxa, ← hp]
      exact hrefl a
    · have hsome : rest.getLast?.isSome = true := List.getLast?_isSome.mpr hrest
      obtain ⟨q, hq⟩ := Option.isSome_iff_exists.mp hsome
      have hpl : rest.getLast? = some p := by
        rw [List.getLast?_cons, hq] at hp
        simp only [Option.getD_some, Option.some.injEq] at hp
        rw [hq, hp]
      have hpmem : p ∈ rest := List.mem_of_mem_getLast? (Option.mem_def.mpr hpl)
      rcases List.mem_cons.mp hx with hxa | hxr
      · subst hxa
        exact Trans.trans (hs.1 p hpmem) (hrefl p)
      · exact ih p hs.2 hpl x hxr

theorem get_most_recent_backup_spec (fs : FS) (p : String)
    (h : get_most_recent_backup fs = some p) :
    ∃ f ∈ fs.backups, isJsonFile f.name = true ∧ p = "backups/" ++ f.name
      ∧ ∀ g ∈ fs.backups, isJsonFile g.name = true →
          strLe ("backups/" ++ g.name) p = true := by
  unfold get_most_recent_backup at h
  rw [List.head?_reverse] at h
  have hperm := List.perm_insertionSort (fun a b => strLe a b = true)
    ((fs.backups.filter fun f => isJsonFile f.name).map fun f => "backups/" ++ f.name)
  have hsorted := List.sorted_insertionSort (fun a b => strLe a b = true)
    ((fs.backups.filter fun f => isJsonFile f.name).map fun f => "backups/" ++ f.name)
  have hpmem : p ∈ (fs.backups.filter fun f => isJsonFile f.name).map
      fun f => "backups/" ++ f.name :=
    hperm.mem_iff.mp (List.mem_of_mem_getLast? (Option.mem_def.mpr h))
  obtain ⟨f, hf, hfp⟩ := List.mem_map.mp hpmem
  obtain ⟨hfmem, hfjson⟩ := List.mem_filter.mp hf
  refine ⟨f, hfmem, hfjson, hfp.symm, ?_⟩
  intro g hg hgjson
  have hgmem : ("backups/" ++ g.name) ∈ (fs.backups.filter
      fun f => isJsonFile f.name).map fun f => "backups/" ++ f.name :=
    List.mem_map.mpr ⟨g, List.mem_filter.mpr ⟨hg, hgjson⟩, rfl⟩
  exact sorted_all_le_getLast (fun a => strLe_refl a) _ p hsorted h
    ("backups/" ++ g.name) (hperm.mem_iff.mpr hgmem)

theorem string_append_left_cancel {p a b : String} (h : p ++ a = p ++ b) :
    a = b := by
  have h2 := congrArg String.data h
  simp only [String.data_append] at h2
  cases a; cases b
  exact congrArg String.mk (List.append_cancel_left h2)

/-- A primary file that is absent or whose content does not parse. -/
def primaryFailed (parse : String → Option (List Transaction)) (fs : FS) :
    Prop :=
  fs.primary = none ∨ ∃ d, fs.primary = some d ∧ parse d = none

/-- C2: `load` always returns a usable ledger. If the primary file exists
and parses, its content is returned with the file system untouched. The
selected backup path always belongs to a `.json` file of the backup
directory and is lexicographically greatest among those. If the primary
file is absent or unparsable and the selected backup reads and parses,
`load` returns that backup's transactions and the primary file afterwards
matches the backup's raw content. If the primary file fails and every
`.json` backup's content fails to parse, `load` returns the empty ledger
with the file system untouched. -/
theorem claim_C2_load_recovery :
    (∀ (parse : String → Option (List Transaction)) (fs : FS)
        (data : String) (db : List Transaction),
        fs.primary = some data → parse data = some db →
        Database.load parse fs = (db, fs))
    ∧ (∀ (fs : FS) (p : String), get_most_recent_backup fs = some p →
        ∃ f ∈ fs.backups, isJsonFile f.name = true
          ∧ p = "backups/" ++ f.name
          ∧ ∀ g ∈ fs.backups, isJsonFile g.name = true →
              strLe ("backups/" ++ g.name) p = true)
    ∧ (∀ (parse : String → Option (List Transaction)) (fs : FS)
        (p data : String) (db : List Transaction),
        primaryFailed parse fs →
        get_most_recent_backup fs = some p →
        readBackup fs p = some data →
        parse data = some db →
        Database.load parse fs = (db, { fs with primary := some data }))
    ∧ (∀ (parse : String → Option (List Transaction)) (fs : FS),
        primaryFailed parse fs →
        (∀ f ∈ fs.backups, isJsonFile f.name = true → parse f.content = none) →
        Database.load parse fs = ([], fs)) := by
  refine ⟨?_, fun fs p h => get_most_recent_backup_spec fs p h, ?_, ?_⟩
  · intro parse fs data db hp hparse
    unfold Database.load
    simp only [hp, hparse]
  · intro parse fs p data db hfail hget hread hparse
    have hback : Database.loadBackup parse fs
        = (db, { fs with primary := some data }) := by
      unfold Database.loadBackup
      simp only [hget, hread, hparse]
    unfold Database.load
    rcases hfail with hnone | ⟨d, hd, hdparse⟩
    · simp only [hnone]; exact hback
    · simp only [hd, hdparse]; exact hback
  · intro parse fs hfail hall
    have hback : Database.loadBackup parse fs = ([], fs) := by
      unfold Database.loadBackup
      cases hget : get_most_recent_backup fs with
      | none => rfl
      | some p =>
        obtain ⟨f, hfmem, hfjson, hfp, _⟩ := get_most_recent_backup_spec fs p hget
        cases hread : readBackup fs p with
        | none => simp only [hread]
        | some data =>
          have hread2 := hread
          unfold readBackup at hread2
          cases hfind : fs.backups.find? fun g => ("backups/" ++ g.name) == p with
          | none => rw [hfind] at hread2; exact absurd hread2 (by simp)
          | some g =>
            rw [hfind] at hread2
            simp only [Option.map_some', Option.some.injEq] at hread2
            have hgmem : g ∈ fs.backups := List.mem_of_find?_eq_some hfind
            have hgp : ("backups/" ++ g.name) = p := by
              have := List.find?_some hfind
              simpa using this
            have hgname : g.name = f.name :=
              string_append_left_cancel (hgp.trans hfp)
            have hgjson : isJsonFile g.name = true := hgname ▸ hfjson
            have hgparse : parse g.content = none := hall g hgmem hgjson
            rw [← hread2] at hread
            simp only [hread, hgparse]
    unfold Database.load
    rcases hfail with hnone | ⟨d, hd, hdparse⟩
    · simp only [hnone]; exact hback
    · simp only [hd, hdparse]; exact hback

-- concrete instances for the C2 witness
def exParse : String → Option (List Transaction) :=
  fun s => if s = "good" then some exC1 else none

def exFsA : FS := ⟨some "good", []⟩

def exFsC : FS := ⟨some "bad", [⟨"transactions_backup_1.json", "good", 0⟩]⟩

def exFsD : FS := ⟨none, [⟨"a.json", "bad", 0⟩]⟩

/-- Witness for C2: the three `load` behaviors and the backup-selection
property instantiated on concrete file systems. -/
theorem claim_C2_witness :
    Database.load exParse exFsA = (exC1, exFsA)
    ∧ (∃ f ∈ exFsC.backups, isJsonFile f.name = true
        ∧ "backups/transactions_backup_1.json" = "backups/" ++ f.name
        ∧ ∀ g ∈ exFsC.backups, isJsonFile g.name = true →
            strLe ("backups/" ++ g.name)
              "backups/transactions_backup_1.json" = true)
    ∧ Database.load exParse exFsC
        = (exC1, { exFsC with primary := some "good" })
    ∧ Database.load exParse exFsD = ([], exFsD) :=
  ⟨claim_C2_load_recovery.1 exParse exFsA "good" exC1 rfl (by decide),
   claim_C2_load_recovery.2.1 exFsC "backups/transactions_backup_1.json"
     (by decide),
   claim_C2_load_recovery.2.2.1 exParse exFsC
     "backups/transactions_backup_1.json" "good" exC1
     (Or.inr ⟨"bad", rfl, by decide⟩) (by decide) (by decide) (by decide),
   claim_C2_load_recovery.2.2.2 exParse exFsD (Or.inl rfl)
     (by decide)⟩

/-- C5: for every ledger, file system and timestamps, if the serde codec
round-trips the ledger (`parse (serialize txs) = some txs`, the documented
contract of the derived serde instances for every field of `Transaction`,
deadline history included), then a successful `save` followed by `load`
returns a transaction list equal to the saved one — equality of
`Transaction` values covers counterparty, amount, currency, direction,
datetime, expected return date, attachment path and deadline history —
and leaves the file system exactly as `save` wrote it. -/
theorem claim_C5_save_load_roundtrip :
    ∀ (parse : String → Option (List Transaction))
      (serialize : List Transaction → String)
      (txs : List Transaction) (fs : FS) (ts1 ts2 : String) (m1 m2 : Nat),
      parse (serialize txs) = some txs →
      Database.load parse (Database.save serialize txs fs ts1 ts2 m1 m2)
        = (txs, Database.save serialize txs fs ts1 ts2 m1 m2) := by
  intro parse serialize txs fs ts1 ts2 m1 m2 h
  have hp : (Database.save serialize txs fs ts1 ts2 m1 m2).primary
      = some (serialize txs) := rfl
  unfold Database.load
  simp only [hp, h]

/-- A codec that round-trips the example ledger, for the C5 witness. -/
def exSerialize : List Transaction → String := fun _ => "good"

/-- Witness for C5: the round trip applied to the example ledger, an
empty file system and concrete timestamps. -/
theorem claim_C5_witness :
    Database.load exParse (Database.save exSerialize exC1 ⟨none, []⟩ "t1" "t2" 0 1)
      = (exC1, Database.save exSerialize exC1 ⟨none, []⟩ "t1" "t2" 0 1) :=
  claim_C5_save_load_roundtrip exParse exSerialize exC1 ⟨none, []⟩ "t1" "t2" 0 1
    (by decide)

/-! ## Backup rotation (C3, C4) -/

theorem extSplit_of_no_dot (l : List Char) (h : '.' ∉ l) :
    extSplit l = none := by
  induction l with
  | nil => rfl
  | cons c cs ih =>
    have hc : ¬ c = '.' := fun hc => h (hc ▸ List.mem_cons_self c cs)
    have hcs : '.' ∉ cs := fun hm => h (List.mem_cons_of_mem c hm)
    simp only [extSplit, ih hcs]
    rw [if_neg hc]

theorem extSplit_last_dot (xs tail : List Char) (h : '.' ∉ tail) :
    extSplit (xs ++ '.' :: tail) = some (xs, tail) := by
  induction xs with
  | nil =>
    rw [List.nil_append]
    show (match extSplit tail with
        | some (st, e) => some ('.' :: st, e)
        | none => if '.' = '.' then some ([], tail) else none)
      = some ([], tail)
    rw [extSplit_of_no_dot tail h]
    rfl
  | cons c cs ih =>
    rw [List.cons_append]
    show (match extSplit (cs ++ '.' :: tail) with
        | some (st, e) => some (c :: st, e)
        | none => if c = '.' then some ([], cs ++ '.' :: tail) else none)
      = some (c :: cs, tail)
    rw [ih]

theorem isJsonFile_backupName (ts : String) :
    isJsonFile (backupName ts) = true := by
  have hdata : (backupName ts).toList
      = ("transactions_backup_".toList ++ ts.toList) ++ '.' :: "json".toList := by
    unfold backupName
    simp only [String.toList, String.data_append, List.append_assoc]
  have hne : ("transactions_backup_".toList ++ ts.toList) ≠ [] := by
    intro hc
    exact absurd (List.append_eq_nil.mp hc).1 (by decide)
  unfold isJsonFile extnOf
  rw [hdata, extSplit_last_dot _ _ (by decide)]
  show ((if ("transactions_backup_".toList ++ ts.toList) = [] then none
      else some (String.mk "json".toList)) == some "json") = true
  rw [if_neg hne]
  rfl

instance : IsTotal BFile (fun a b => b.mtime ≤ a.mtime) :=
  ⟨fun a b => Nat.le_total b.mtime a.mtime⟩

instance : IsTrans BFile (fun a b => b.mtime ≤ a.mtime) :=
  ⟨fun _ _ _ h1 h2 => Nat.le_trans h2 h1⟩

/-- The files of a `save` that were not in the backup directory before. -/
def newBackups (old new : List BFile) : List BFile :=
  new.filter fun f => !(old.any fun g => g.name == f.name)

/-- The number of `.json` backups modified at or after `f`'s time — `f`'s
1-based rank by recency. -/
def recencyRank (backups : List BFile) (f : BFile) : Nat :=
  backups.countP fun g => decide (f.mtime ≤ g.mtime) && isJsonFile g.name

theorem cleanup_keep_of_rank_le (backups : List BFile) (f : BFile)
    (hnodup : (backups.map fun g => g.name).Nodup)
    (hf : f ∈ backups) (hjson : isJsonFile f.name = true)
    (hcount : recencyRank backups f ≤ MAX_BACKUPS) :
    ((List.insertionSort (fun a b => b.mtime ≤ a.mtime)
        (backups.filter fun g => isJsonFile g.name)).drop MAX_BACKUPS).any
      (fun d => d.name == f.name) = false := by
  by_contra hany
  rw [Bool.not_eq_false, List.any_eq_true] at hany
  obtain ⟨d, hd, hdname⟩ := hany
  rw [beq_iff_eq] at hdname
  set sorted := List.insertionSort (fun a b => b.mtime ≤ a.mtime)
    (backups.filter fun g => isJsonFile g.name) with hsorted_def
  have hperm : sorted.Perm (backups.filter fun g => isJsonFile g.name) :=
    List.perm_insertionSort _ _
  have hdmem : d ∈ backups :=
    List.mem_of_mem_filter (hperm.mem_iff.mp (List.mem_of_mem_drop hd))
  have hdf : d = f := List.inj_on_of_nodup_map hnodup hdmem hf hdname
  subst hdf
  -- d (= f) sits at position >= MAX_BACKUPS in the descending sort, so at
  -- least MAX_BACKUPS + 1 json files have mtime >= f.mtime
  have hsorted : List.Pairwise (fun a b => b.mtime ≤ a.mtime) sorted :=
    List.sorted_insertionSort _ _
  have hsplit := List.take_append_drop MAX_BACKUPS sorted
  have hpw : ∀ a ∈ sorted.take MAX_BACKUPS, ∀ b ∈ sorted.drop MAX_BACKUPS,
      b.mtime ≤ a.mtime := by
    have := hsplit ▸ hsorted
    exact (List.pairwise_append.mp this).2.2
  have hlen : MAX_BACKUPS < sorted.length := by
    by_contra hle
    rw [not_lt] at hle
    rw [List.drop_eq_nil_iff.mpr hle] at hd
    exact absurd hd (List.not_mem_nil d)
  have htake : (sorted.take MAX_BACKUPS).countP
      (fun g => decide (d.mtime ≤ g.mtime)) = MAX_BACKUPS := by
    rw [List.countP_eq_length.mpr, List.length_take]
    · omega
    · intro a ha
      simpa using hpw a ha d hd
  have hdrop : 0 < (sorted.drop MAX_BACKUPS).countP
      (fun g => decide (d.mtime ≤ g.mtime)) :=
    List.countP_pos_iff.mpr ⟨d, hd, by simp⟩
  have hcnt : MAX_BACKUPS + 1 ≤ sorted.countP
      (fun g => decide (d.mtime ≤ g.mtime)) := by
    have := List.countP_append (fun g => decide (d.mtime ≤ g.mtime))
      (sorted.take MAX_BACKUPS) (sorted.drop MAX_BACKUPS)
    rw [hsplit] at this
    omega
  have hrank : sorted.countP (fun g => decide (d.mtime ≤ g.mtime))
      = recencyRank backups d := by
    rw [hperm.countP_eq, List.countP_filter]
    rfl
  rw [hrank] at hcnt
  omega

theorem cleanup_delete_of_rank_gt (backups : List BFile) (f : BFile)
    (hnodup : (backups.map fun g => g.name).Nodup)
    (hmt : ((backups.filter fun g => isJsonFile g.name).map
        fun g => g.mtime).Nodup)
    (hf : f ∈ backups) (hjson : isJsonFile f.name = true)
    (hcount : MAX_BACKUPS < recencyRank backups f) :
    ((List.insertionSort (fun a b => b.mtime ≤ a.mtime)
        (backups.filter fun g => isJsonFile g.name)).drop MAX_BACKUPS).any
      (fun d => d.name == f.name) = true := by
  set sorted := List.insertionSort (fun a b => b.mtime ≤ a.mtime)
    (backups.filter fun g => isJsonFile g.name) with hsorted_def
  have hperm : sorted.Perm (backups.filter fun g => isJsonFile g.name) :=
    List.perm_insertionSort _ _
  have hfmem : f ∈ sorted :=
    hperm.mem_iff.mpr (List.mem_filter.mpr ⟨hf, hjson⟩)
  have hnd : sorted.Nodup :=
    hperm.nodup_iff.mpr ((hnodup.of_map).filter _)
  have hsorted : List.Pairwise (fun a b => b.mtime ≤ a.mtime) sorted :=
    List.sorted_insertionSort _ _
  have hsplit := List.take_append_drop MAX_BACKUPS sorted
  rw [List.any_eq_true]
  have hfdrop : f ∈ sorted.drop MAX_BACKUPS := by
    rcases (List.mem_append.mp (hsplit ▸ hfmem)) with htk | hdr
    · exfalso
      -- f among the newest MAX_BACKUPS: its rank is at most MAX_BACKUPS
      have hpw : ∀ a ∈ sorted.take MAX_BACKUPS, ∀ b ∈ sorted.drop MAX_BACKUPS,
          b.mtime ≤ a.mtime := by
        have := hsplit ▸ hsorted
        exact (List.pairwise_append.mp this).2.2
      have hdisj : f ∉ sorted.drop MAX_BACKUPS := by
        have := hsplit ▸ hnd
        rw [List.nodup_append] at this
        exact this.2.2 htk
      have hdrop0 : (sorted.drop MAX_BACKUPS).countP
          (fun g => decide (f.mtime ≤ g.mtime)) = 0 := by
        rw [List.countP_eq_zero]
        intro b hb
        simp only [decide_eq_true_eq]
        intro hle
        have hge : b.mtime ≤ f.mtime := hpw f htk b hb
        have hbmem : b ∈ sorted := hsplit ▸ List.mem_append_right _ hb
        have hfj : f ∈ backups.filter fun g => isJsonFile g.name :=
          hperm.mem_iff.mp hfmem
        have hbj : b ∈ backups.filter fun g => isJsonFile g.name :=
          hperm.mem_iff.mp hbmem
        have : b = f := List.inj_on_of_nodup_map hmt hbj hfj (Nat.le_antisymm hge hle)
        exact hdisj (this ▸ hb)
      have htake : (sorted.take MAX_BACKUPS).countP
          (fun g => decide (f.mtime ≤ g.mtime)) ≤ MAX_BACKUPS := by
        calc (sorted.take MAX_BACKUPS).countP _ ≤ (sorted.take MAX_BACKUPS).length :=
              List.countP_le_length _
          _ ≤ MAX_BACKUPS := by rw [List.length_take]; omega
      have hcnt : sorted.countP (fun g => decide (f.mtime ≤ g.mtime))
          ≤ MAX_BACKUPS := by
        have := List.countP_append (fun g => decide (f.mtime ≤ g.mtime))
          (sorted.take MAX_BACKUPS) (sorted.drop MAX_BACKUPS)
        rw [hsplit] at this
        omega
      have hrank : sorted.countP (fun g => decide (f.mtime ≤ g.mtime))
          = recencyRank backups f := by
        rw [hperm.countP_eq, List.countP_filter]
        rfl
      rw [hrank] at hcnt
      omega
    · exact hdr
  exact ⟨f, hfdrop, by simp⟩

theorem newBackups_cleanup_append (old adds : List BFile)
    (hfreshAll : ∀ a ∈ adds, ∀ g ∈ old, ¬ g.name = a.name)
    (hkeep : ∀ a ∈ adds,
      ((List.insertionSort (fun x y => y.mtime ≤ x.mtime)
          ((old ++ adds).filter fun g => isJsonFile g.name)).drop
        MAX_BACKUPS).any (fun d => d.name == a.name) = false) :
    newBackups old (cleanup_old_backups (old ++ adds)) = adds := by
  unfold newBackups cleanup_old_backups
  dsimp only
  rw [List.filter_filter, List.filter_append]
  have hold : (old.filter fun f =>
      (!(old.any fun g => g.name == f.name))
      && (!(((List.insertionSort (fun x y => y.mtime ≤ x.mtime)
            ((old ++ adds).filter fun g => isJsonFile g.name)).drop
          MAX_BACKUPS).any fun d => d.name == f.name))) = [] := by
    rw [List.filter_eq_nil_iff]
    intro a ha
    have hself : (old.any fun g => g.name == a.name) = true :=
      List.any_eq_true.mpr ⟨a, ha, by simp⟩
    simp [hself]
  have hadds : (adds.filter fun f =>
      (!(old.any fun g => g.name == f.name))
      && (!(((List.insertionSort (fun x y => y.mtime ≤ x.mtime)
            ((old ++ adds).filter fun g => isJsonFile g.name)).drop
          MAX_BACKUPS).any fun d => d.name == f.name))) = adds := by
    rw [List.filter_eq_self]
    intro a ha
    have hfr : (old.any fun g => g.name == a.name) = false :=
      List.any_eq_false.mpr (fun g hg => by
        simp only [beq_iff_eq]
        exact hfreshAll a ha g hg)
    rw [hkeep a ha, hfr]
    rfl
  rw [hold, hadds, List.nil_append]

theorem writeFile_fresh (backups : List BFile) (name content : String)
    (m : Nat) (h : ∀ f ∈ backups, ¬ f.name = name) :
    writeFile backups name content m = backups ++ [⟨name, content, m⟩] := by
  unfold writeFile
  have hany : (backups.any fun f => f.name == name) = false :=
    List.any_eq_false.mpr (fun f hf => by
      simp only [beq_iff_eq]
      exact h f hf)
  rw [hany]
  simp

theorem recencyRank_append_old_lt (old adds : List BFile) (f : BFile)
    (hold : ∀ g ∈ old, g.mtime < f.mtime) :
    recencyRank (old ++ adds) f = recencyRank adds f := by
  unfold recencyRank
  rw [List.countP_append]
  have h0 : (old.countP fun g =>
      decide (f.mtime ≤ g.mtime) && isJsonFile g.name) = 0 := by
    rw [List.countP_eq_zero]
    intro g hg
    simp only [Bool.and_eq_true, decide_eq_true_eq, not_and]
    intro hle
    exact absurd hle (by have := hold g hg; omega)
  rw [h0, Nat.zero_add]

-- the C3 counterexample state: a primary file and an empty backup
-- directory
def exFsC3 : FS := ⟨some "old", []⟩

/-- Counterexample to C3 as stated: when both `Local::now()` calls of one
`save` land in the same second (the common case), the two timestamped
backup names coincide, the post-save write overwrites the pre-save copy,
and only one new backup file exists after the save — not two — even
though the primary file existed. -/
theorem claim_C3_counterexample :
    exFsC3.primary.isSome = true
    ∧ (newBackups exFsC3.backups
        (Database.save (fun _ => "new") [] exFsC3
          "20240101_120000" "20240101_120000" 0 1).backups).length = 1
    ∧ newBackups exFsC3.backups
        (Database.save (fun _ => "new") [] exFsC3
          "20240101_120000" "20240101_120000" 0 1).backups
      = [⟨"transactions_backup_20240101_120000.json", "new", 1⟩] := by
  refine ⟨rfl, ?_, ?_⟩ <;> decide

/-- C3 (amended): provided the two timestamps yield distinct backup names,
neither name collides with an existing backup file, and the two new
modification times are newer than every existing backup's, a successful
`save` adds exactly two new backup files when the primary file existed —
the pre-save primary content under the first timestamped name and the
post-save serialization under the second — and exactly one (the post-save
copy) when it did not; when the names coincide the later write overwrites
the earlier one, as the counterexample shows. -/
theorem claim_C3_two_backups_per_save :
    ∀ (serialize : List Transaction → String) (txs : List Transaction)
      (fs : FS) (ts1 ts2 : String) (m1 m2 : Nat),
      (fs.backups.map fun g => g.name).Nodup →
      ¬ backupName ts1 = backupName ts2 →
      (∀ f ∈ fs.backups, ¬ f.name = backupName ts1 ∧ ¬ f.name = backupName ts2) →
      (∀ f ∈ fs.backups, f.mtime < m1) →
      m1 < m2 →
      (∀ d, fs.primary = some d →
          newBackups fs.backups
            (Database.save serialize txs fs ts1 ts2 m1 m2).backups
            = [⟨backupName ts1, d, m1⟩,
               ⟨backupName ts2, serialize txs, m2⟩])
      ∧ (fs.primary = none →
          newBackups fs.backups
            (Database.save serialize txs fs ts1 ts2 m1 m2).backups
            = [⟨backupName ts2, serialize txs, m2⟩]) := by
  intro serialize txs fs ts1 ts2 m1 m2 hnodup hne hfresh hml hm12
  constructor
  · intro d hd
    have hsave : (Database.save serialize txs fs ts1 ts2 m1 m2).backups
        = cleanup_old_backups (fs.backups
            ++ [⟨backupName ts1, d, m1⟩, ⟨backupName ts2, serialize txs, m2⟩]) := by
      unfold Database.save
      simp only [hd]
      rw [writeFile_fresh fs.backups (backupName ts1) d m1
        (fun f hf => (hfresh f hf).1)]
      rw [writeFile_fresh _ (backupName ts2) (serialize txs) m2 ?hfr]
      case hfr =>
        intro f hf
        rcases List.mem_append.mp hf with hf1 | hf2
        · exact (hfresh f hf1).2
        · rw [List.mem_singleton.mp hf2]
          exact hne
      rw [List.append_assoc]
      rfl
    rw [hsave]
    have hnodup2 : ((fs.backups
        ++ [(⟨backupName ts1, d, m1⟩ : BFile),
            (⟨backupName ts2, serialize txs, m2⟩ : BFile)]).map
          fun g => g.name).Nodup := by
      rw [List.map_append, List.nodup_append]
      refine ⟨hnodup, ?_, ?_⟩
      · simp only [List.map_cons, List.map_nil, List.nodup_cons]
        exact ⟨by simpa using hne, by simp⟩
      · intro x hx
        obtain ⟨g, hg, hgx⟩ := List.mem_map.mp hx
        intro hmem
        simp only [List.map_cons, List.map_nil, List.mem_cons,
          List.not_mem_nil, or_false, List.mem_singleton] at hmem
        rcases hmem with h1 | h2
        · exact (hfresh g hg).1 (hgx ▸ h1)
        · exact (hfresh g hg).2 (hgx ▸ h2)
    apply newBackups_cleanup_append
    · intro a ha g hg
      rcases List.mem_cons.mp ha with h1 | h2
      · subst h1; exact (hfresh g hg).1
      · rw [List.mem_singleton.mp h2]; exact (hfresh g hg).2
    · intro a ha
      apply cleanup_keep_of_rank_le _ _ hnodup2
      · exact List.mem_append_right _ ha
      · rcases List.mem_cons.mp ha with h1 | h2
        · subst h1; exact isJsonFile_backupName ts1
        · rw [List.mem_singleton.mp h2]; exact isJsonFile_backupName ts2
      · rcases List.mem_cons.mp ha with h1 | h2
        · subst h1
          rw [recencyRank_append_old_lt _ _ _ (fun g hg => hml g hg)]
          unfold recencyRank
          simp only [List.countP_cons, List.countP_nil,
            isJsonFile_backupName, decide_eq_true_eq]
          have h1le : (decide (m1 ≤ m1)) = true := by simp
          have h2le : (decide (m1 ≤ m2)) = true := by simp [Nat.le_of_lt hm12]
          simp [h1le, h2le, MAX_BACKUPS]
        · rw [List.mem_singleton.mp h2]
          rw [recencyRank_append_old_lt _ _ _ (fun g hg => by
            show g.mtime < m2
            have := hml g hg; omega)]
          unfold recencyRank
          simp only [List.countP_cons, List.countP_nil,
            isJsonFile_backupName]
          have h1le : (decide (m2 ≤ m1)) = false := by
            simp [Nat.not_le_of_lt hm12]
          have h2le : (decide (m2 ≤ m2)) = true := by simp
          simp [h1le, h2le, MAX_BACKUPS]
  · intro hd
    have hsave : (Database.save serialize txs fs ts1 ts2 m1 m2).backups
        = cleanup_old_backups (fs.backups
            ++ [⟨backupName ts2, serialize txs, m2⟩]) := by
      unfold Database.save
      simp only [hd]
      rw [writeFile_fresh fs.backups (backupName ts2) (serialize txs) m2
        (fun f hf => (hfresh f hf).2)]
    rw [hsave]
    have hnodup2 : ((fs.backups
        ++ [(⟨backupName ts2, serialize txs, m2⟩ : BFile)]).map
          fun g => g.name).Nodup := by
      rw [List.map_append, List.nodup_append]
      refine ⟨hnodup, by simp, ?_⟩
      intro x hx
      obtain ⟨g, hg, hgx⟩ := List.mem_map.mp hx
      simp only [List.map_cons, List.map_nil, List.mem_singleton]
      intro h2
      exact (hfresh g hg).2 (hgx ▸ h2)
    apply newBackups_cleanup_append
    · intro a ha g hg
      rw [List.mem_singleton.mp ha]
      exact (hfresh g hg).2
    · intro a ha
      apply cleanup_keep_of_rank_le _ _ hnodup2
      · exact List.mem_append_right _ ha
      · rw [List.mem_singleton.mp ha]
        exact isJsonFile_backupName ts2
      · rw [List.mem_singleton.mp ha]
        rw [recencyRank_append_old_lt _ _ _ (fun g hg => by
          show g.mtime < m2
          have := hml g hg; omega)]
        unfold recencyRank
        simp only [List.countP_cons, List.countP_nil, isJsonFile_backupName]
        have h2le : (decide (m2 ≤ m2)) = true := by simp
        simp [h2le, MAX_BACKUPS]

/-- Witness for C3 (amended): a concrete save over a one-file primary and
empty backup directory, with distinct fresh timestamps, adds exactly the
pre-save and post-save backup files. -/
theorem claim_C3_witness :
    newBackups exFsC3.backups
        (Database.save exSerialize [] exFsC3 "a" "b" 0 1).backups
      = [⟨backupName "a", "old", 0⟩, ⟨backupName "b", exSerialize [], 1⟩] :=
  (claim_C3_two_backups_per_save exSerialize [] exFsC3 "a" "b" 0 1
    (by decide) (by decide)
    (fun f hf => absurd hf (List.not_mem_nil f))
    (fun f hf => absurd hf (List.not_mem_nil f))
    (by decide)).1 "old" rfl

/-- The documented backup naming pattern: the fixed prefix
`transactions_backup_` and suffix `.json` of `Database::save`'s format
string. -/
def matchesBackupPattern (name : String) : Bool :=
  List.isPrefixOf "transactions_backup_".toList name.toList
  && List.isSuffixOf ".json".toList name.toList

-- a backup directory holding one genuine backup and one stray .json file
def exFsC4 : FS :=
  ⟨none, [⟨"transactions_backup_0.json", "a", 0⟩, ⟨"zzz.json", "b", 1⟩]⟩

/-- Counterexample to C4 as stated: recovery selection filters only by the
`.json` extension, not by the backup naming pattern — a stray `zzz.json`
in the backup directory is selected for recovery ahead of a genuine
`transactions_backup_*.json` file. -/
theorem claim_C4_counterexample :
    get_most_recent_backup exFsC4 = some "backups/zzz.json"
    ∧ matchesBackupPattern "zzz.json" = false := by
  exact ⟨by decide, by decide⟩

/-- Iterated saves for the pruning demonstration: each save uses two fresh
timestamp strings and two fresh strictly increasing modification times. -/
def saveIterDemo : Nat → Nat → FS → FS
  | _, 0, fs => fs
  | k, n+1, fs =>
      saveIterDemo (k+1) n
        (Database.save (fun _ => "x") [] fs (toString (2*k))
          (toString (2*k+1)) (2*k) (2*k+1))

/-- 55 successful saves starting from an empty state. -/
def demo55 : FS := saveIterDemo 0 55 ⟨none, []⟩


theorem cleanup_mem_iff (backups : List BFile) (f : BFile)
    (hnames : (backups.map fun g => g.name).Nodup)
    (hmt : ((backups.filter fun g => isJsonFile g.name).map
        fun g => g.mtime).Nodup) :
    f ∈ cleanup_old_backups backups
      ↔ f ∈ backups
        ∧ (isJsonFile f.name = false ∨ recencyRank backups f ≤ MAX_BACKUPS) := by
  unfold cleanup_old_backups
  dsimp only
  rw [List.mem_filter]
  have hperm := List.perm_insertionSort (fun a b : BFile => b.mtime ≤ a.mtime)
    (backups.filter fun g => isJsonFile g.name)
  constructor
  · rintro ⟨hf, hkeep⟩
    refine ⟨hf, ?_⟩
    by_cases hjson : isJsonFile f.name = true
    · right
      by_contra hgt
      push_neg at hgt
      have hdel := cleanup_delete_of_rank_gt backups f hnames hmt hf hjson hgt
      rw [hdel] at hkeep
      exact absurd hkeep (by simp)
    · left
      exact Bool.not_eq_true _ ▸ (by simpa using hjson)
  · rintro ⟨hf, hcond⟩
    refine ⟨hf, ?_⟩
    by_cases hjson : isJsonFile f.name = true
    · have hrank : recencyRank backups f ≤ MAX_BACKUPS := by
        rcases hcond with hnj | hr
        · exact absurd hjson (by rw [hnj]; simp)
        · exact hr
      rw [cleanup_keep_of_rank_le backups f hnames hf hjson hrank]
      rfl
    · have hany : ((List.insertionSort (fun a b : BFile => b.mtime ≤ a.mtime)
          (backups.filter fun g => isJsonFile g.name)).drop MAX_BACKUPS).any
            (fun d => d.name == f.name) = false := by
        rw [List.any_eq_false]
        intro d hd
        simp only [beq_iff_eq]
        intro hdn
        have hdmemf : d ∈ backups.filter fun g => isJsonFile g.name :=
          hperm.mem_iff.mp (List.mem_of_mem_drop hd)
        have hdjson : isJsonFile d.name = true := (List.mem_filter.mp hdmemf).2
        have hdmem : d ∈ backups := (List.mem_filter.mp hdmemf).1
        have hdf : d = f := List.inj_on_of_nodup_map hnames hdmem hf hdn
        exact hjson (hdf ▸ hdjson)
      rw [hany]
      rfl

set_option maxRecDepth 100000 in
set_option maxHeartbeats 8000000 in
/-- C4 (amended): backup-file participation in recovery selection and in
pruning is decided by the `.json` extension alone, not by the
`transactions_backup_` naming pattern (the counterexample shows a stray
`zzz.json` winning recovery selection). Under distinct file names and
distinct `.json` modification times, pruning keeps exactly the files that
are not `.json` plus the `.json` files whose recency rank is at most 50 —
the 50 most-recently-modified `.json` files. After 55 successful saves
from an empty state with fresh increasing timestamps (109 backup files
written in total, with modification times 1..109), exactly 50 backup
files remain — those with the 50 greatest modification times, 60..109. -/
theorem claim_C4_prune_recency :
    (∀ (fs : FS) (p : String), get_most_recent_backup fs = some p →
        ∃ f ∈ fs.backups, isJsonFile f.name = true ∧ p = "backups/" ++ f.name)
    ∧ (∀ (backups : List BFile) (f : BFile),
        (backups.map fun g => g.name).Nodup →
        ((backups.filter fun g => isJsonFile g.name).map
            fun g => g.mtime).Nodup →
        (f ∈ cleanup_old_backups backups
          ↔ f ∈ backups
            ∧ (isJsonFile f.name = false
                ∨ recencyRank backups f ≤ MAX_BACKUPS)))
    ∧ demo55.backups.length = 50
    ∧ (demo55.backups.all fun f => 60 ≤ f.mtime) = true
    ∧ ((demo55.backups.map fun f => f.mtime).Nodup) := by
  refine ⟨?_, fun backups f h1 h2 => cleanup_mem_iff backups f h1 h2,
    ?_, ?_, ?_⟩
  · intro fs p h
    obtain ⟨f, hf, hjson, hp, _⟩ := get_most_recent_backup_spec fs p h
    exact ⟨f, hf, hjson, hp⟩
  · exact (by decide : demo55.backups.length = 50)
  · exact (by decide : (demo55.backups.all fun f => 60 ≤ f.mtime) = true)
  · exact (by decide : ((demo55.backups.map fun f => f.mtime).Nodup))

/-- Witness for C4 (amended): the participation property on the concrete
two-file directory, and the pruning membership characterization on a
one-file directory. -/
theorem claim_C4_witness :
    (∃ f ∈ exFsC4.backups, isJsonFile f.name = true
        ∧ "backups/zzz.json" = "backups/" ++ f.name)
    ∧ ((⟨"a.json", "", 0⟩ : BFile) ∈ cleanup_old_backups [⟨"a.json", "", 0⟩]
        ↔ (⟨"a.json", "", 0⟩ : BFile) ∈ [(⟨"a.json", "", 0⟩ : BFile)]
          ∧ (isJsonFile (⟨"a.json", "", 0⟩ : BFile).name = false
              ∨ recencyRank [⟨"a.json", "", 0⟩] ⟨"a.json", "", 0⟩
                  ≤ MAX_BACKUPS)) :=
  ⟨claim_C4_prune_recency.1 exFsC4 "backups/zzz.json" (by decide),
   claim_C4_prune_recency.2.1 [⟨"a.json", "", 0⟩] ⟨"a.json", "", 0⟩
     (by decide) (by decide)⟩

/-! ## Attachment store (C9) -/

theorem extSplit_none_no_dot (l : List Char) (h : extSplit l = none) :
    '.' ∉ l := by
  induction l with
  | nil => simp
  | cons c cs ih =>
    simp only [extSplit] at h
    cases hrec : extSplit cs with
    | some p => rw [hrec] at h; exact absurd h (by simp)
    | none =>
      rw [hrec] at h
      by_cases hc : c = '.'
      · rw [if_pos hc] at h; exact absurd h (by simp)
      · rw [if_neg hc] at h
        intro hmem
        rcases List.mem_cons.mp hmem with h1 | h2
        · exact hc h1.symm
        · exact ih hrec h2

theorem extSplit_some_split (l : List Char) (st e : List Char)
    (h : extSplit l = some (st, e)) :
    l = st ++ '.' :: e ∧ '.' ∉ e := by
  induction l generalizing st e with
  | nil => simp [extSplit] at h
  | cons c cs ih =>
    simp only [extSplit] at h
    cases hrec : extSplit cs with
    | some p =>
      obtain ⟨st', e'⟩ := p
      rw [hrec] at h
      simp only [Option.some.injEq, Prod.mk.injEq] at h
      obtain ⟨hst, he⟩ := h
      obtain ⟨hcs, hnd⟩ := ih st' e' hrec
      subst hst
      subst he
      exact ⟨by rw [hcs]; rfl, hnd⟩
    | none =>
      rw [hrec] at h
      by_cases hc : c = '.'
      · rw [if_pos hc] at h
        simp only [Option.some.injEq, Prod.mk.injEq] at h
        obtain ⟨hst, he⟩ := h
        subst hst
        subst he
        exact ⟨by rw [hc]; rfl, extSplit_none_no_dot cs hrec⟩
      · rw [if_neg hc] at h
        exact absurd h (by simp)

theorem extnOf_some_split (name e : String) (h : extnOf name = some e) :
    ∃ stem : List Char, ¬ stem = []
      ∧ name.toList = stem ++ '.' :: e.toList ∧ '.' ∉ e.toList := by
  unfold extnOf at h
  cases hsp : extSplit name.toList with
  | none => rw [hsp] at h; exact absurd h (by simp)
  | some p =>
    obtain ⟨stem, ext⟩ := p
    rw [hsp] at h
    have h2 : (if stem = [] then none else some (String.mk ext)) = some e := h
    by_cases hst : stem = []
    · rw [if_pos hst] at h2; exact absurd h2 (by simp)
    · rw [if_neg hst] at h2
      simp only [Option.some.injEq] at h2
      obtain ⟨hl, hnd⟩ := extSplit_some_split name.toList stem ext hsp
      refine ⟨stem, hst, ?_, ?_⟩
      · rw [hl, ← h2]
        rfl
      · rw [← h2]
        exact hnd

/-- C9: the attachment store errors exactly when the file name cannot be
determined from the source path; otherwise the stored path is
`attachments/{timestamp}_{filename}.{extension}` with the extension
falling back to `"png"`; and whenever the file name has an extension `e`
(so the name already ends in `.e`), the generated name carries `.e`
twice: `attachments/{ts}_{stem}.e.e`. -/
theorem claim_C9_attachment_double_extension :
    (∀ (path ts : String),
        (∃ msg, copy_attachment_to_storage path ts = Except.error msg)
          ↔ fileNameOf path = none)
    ∧ (∀ (path ts fn : String), fileNameOf path = some fn →
        copy_attachment_to_storage path ts
          = Except.ok ("attachments/"
              ++ (ts ++ "_" ++ fn ++ "." ++ (extnOf fn).getD "png")))
    ∧ (∀ (path ts fn e : String), fileNameOf path = some fn →
        extnOf fn = some e →
        ∃ stem : String, fn = stem ++ "." ++ e
          ∧ copy_attachment_to_storage path ts
              = Except.ok ("attachments/"
                  ++ (ts ++ "_" ++ (stem ++ "." ++ e) ++ "." ++ e))) := by
  refine ⟨?_, ?_, ?_⟩
  · intro path ts
    unfold copy_attachment_to_storage
    cases h : fileNameOf path with
    | none => simp
    | some fn => simp
  · intro path ts fn h
    unfold copy_attachment_to_storage
    rw [h]
  · intro path ts fn e h he
    obtain ⟨stem, hne, hsplit, _⟩ := extnOf_some_split fn e he
    have hfn : fn = String.mk stem ++ "." ++ e := by
      apply String.ext
      show fn.data = (String.mk stem ++ "." ++ e).data
      simp only [String.data_append]
      rw [show fn.data = fn.toList from rfl, hsplit]
      simp
    refine ⟨String.mk stem, hfn, ?_⟩
    unfold copy_attachment_to_storage
    simp only [h, he, Option.getD_some]
    rw [hfn]

/-- Witness for C9: the naming rule and double-extension property applied
to the concrete source path `/a/photo.png`. -/
theorem claim_C9_witness :
    (copy_attachment_to_storage "/a/photo.png" "ts"
      = Except.ok ("attachments/"
          ++ ("ts" ++ "_" ++ "photo.png" ++ "."
              ++ (extnOf "photo.png").getD "png")))
    ∧ (∃ stem : String, "photo.png" = stem ++ "." ++ "png"
        ∧ copy_attachment_to_storage "/a/photo.png" "ts"
            = Except.ok ("attachments/"
                ++ ("ts" ++ "_" ++ (stem ++ "." ++ "png") ++ "." ++ "png"))) :=
  ⟨claim_C9_attachment_double_extension.2.1 "/a/photo.png" "ts" "photo.png"
     (by decide),
   claim_C9_attachment_double_extension.2.2 "/a/photo.png" "ts" "photo.png"
     "png" (by decide) (by decide)⟩
